import Mathlib

/-!
Verification of the blogger compiler front end: a shallow embedding of the
regex engine (`src/regex/expr.rs`, `src/regex/nfa.rs`, `src/regex/matcher.rs`),
the lexer (`src/lexer/lexer.rs`, `src/lexer/tokens.rs`), the parser and AST
iterator (`src/parser/parser.rs`), the position tracking (`src/diag/mod.rs`)
and the code generator (`src/backend/codegen.rs`), together with theorems
settling the specification claims about them.

Rust `Vec` stacks are modelled as Lean lists whose head is the stack top;
`Result<T, String>` becomes `Except String T`; machine indices are `Nat`.
-/

namespace Blogger

/-- `Condition` from `src/regex/nfa.rs`: a transition label, either a single
literal character or an explicit character class. (`CharClass` is rendered
as `charCls`.) -/
inductive Condition where
  | id (c : Char)
  | charCls (cs : List Char)
  deriving DecidableEq, Repr

/-- `State` from `src/regex/nfa.rs`: an NFA state. -/
inductive RState where
  | transition (id : Nat) (condition : Condition) (output : Option Nat)
  | split (id : Nat) (left right : Option Nat)
  | accept (id : Nat)
  deriving DecidableEq, Repr

/-- `State::set_out`: fill the outgoing slot. On a `Split` whose two branches
are both empty the left branch is filled as well; the right branch is always
overwritten. `Accept` is left unchanged. -/
def RState.set_out : RState → Option Nat → RState
  | .transition id c _, next => .transition id c next
  | .split id l r, next => if l = none ∧ r = none then .split id next next else .split id l next
  | s, _ => s

/-- `State::get_id`. -/
def RState.get_id : RState → Nat
  | .transition id _ _ => id
  | .split id _ _ => id
  | .accept id => id

/-- `Condition` test used by `State::matches_condition`. -/
def Condition.test : Condition → Char → Bool
  | .id c, ch => c == ch
  | .charCls v, ch => v.contains ch

/-- `State::matches_condition`. -/
def RState.matches_condition : RState → Char → Bool
  | .transition _ condition _, ch => condition.test ch
  | _, _ => false

/-- `Fragment` from `src/regex/nfa.rs`: an under-construction subgraph with a
head state index and the list of state indices whose out-slot is unfilled. -/
structure Fragment where
  head : Nat
  out : List Nat
  deriving DecidableEq, Repr

/-- `Fragment::detached`. -/
def Fragment.detached (head : Nat) : Fragment := ⟨head, [head]⟩

/-- `Fragment::single_link`. -/
def Fragment.single_link (head out : Nat) : Fragment := ⟨head, [out]⟩

/-- `Fragment::multi_link`. -/
def Fragment.multi_link (head : Nat) (left right : List Nat) : Fragment :=
  ⟨head, left ++ right⟩

/-- `NFA` from `src/regex/nfa.rs`: a distinguished head index plus the state
list. -/
structure NFA where
  head : Nat
  state_list : List RState
  deriving DecidableEq, Repr

/-- `NFA::new`. -/
def NFA.new : NFA := ⟨0, []⟩

/-- `NFA::size`. -/
def NFA.size (nfa : NFA) : Nat := nfa.state_list.length

/-- `NFA::start`. -/
def NFA.start (nfa : NFA) : Nat := nfa.head

/-- `NFA::get_state`. Rust indexes the state vector directly (panicking out of
range); all reachable executions stay in range, and out-of-range access is
mapped to a default state. -/
def NFA.get_state (nfa : NFA) (idx : Nat) : RState :=
  nfa.state_list.getD idx (.accept 0)

/-- `NFA::add_state`: push the state, return its index (the old length) and
the grown NFA. -/
def NFA.add_state (nfa : NFA) (st : RState) : Nat × NFA :=
  (nfa.state_list.length, ⟨nfa.head, nfa.state_list ++ [st]⟩)

/-- `NFA::link_state`: set the out-slot of the state at `f_idx` to `t_idx`.
Rust panics when `f_idx` is out of range; in-range is invariant during
construction, and the out-of-range case is modelled as a no-op. -/
def NFA.link_state (nfa : NFA) (f_idx t_idx : Nat) : NFA :=
  match nfa.state_list.get? f_idx with
  | some s => ⟨nfa.head, nfa.state_list.set f_idx (s.set_out (some t_idx))⟩
  | none => nfa

/-- `NFA::link_fragment`: patch every dangling slot of `frag` to `t_idx`. -/
def NFA.link_fragment (nfa : NFA) (frag : Fragment) (t_idx : Nat) : NFA :=
  frag.out.foldl (fun n idx => n.link_state idx t_idx) nfa

/-- `NFA::link_fragments`: patch every dangling slot of `from` to `to.head`,
then rewrite every entry of `from.out` to `to.head`. Returns the patched NFA
together with the mutated `from` fragment. -/
def NFA.link_fragments (nfa : NFA) (frm dst : Fragment) : NFA × Fragment :=
  (nfa.link_fragment frm dst.head, ⟨frm.head, frm.out.map fun _ => dst.head⟩)

/-- `NFA::range_chars`: the characters with code points from `start` to
`stop` inclusive (invalid code points dropped), provided `start ≤ stop`. -/
def NFA.range_chars (start stop : Char) : Except String (List Char) :=
  if start ≤ stop then
    .ok (((List.range (stop.toNat - start.toNat + 1)).map (· + start.toNat)).filterMap
      fun n => if Nat.isValidChar n then some (Char.ofNat n) else none)
  else
    .error "Ranges must be specified in ascending order"

/-- `Expr` from `src/regex/expr.rs`: one element of the postfix sequence. -/
inductive Expr where
  | literal (c : Char)
  | concat
  | alt
  | star
  | opt
  | plus
  | charRange (l r : Char)
  deriving DecidableEq, Repr

/-- The state of `NFA::build`'s loop: the NFA under construction, the fragment
stack (head of the list is the stack top) and the per-element counter. -/
structure BuildState where
  nfa : NFA
  stack : List Fragment
  counter : Nat
  deriving DecidableEq, Repr

/-- One iteration of the loop in `NFA::build` (`src/regex/nfa.rs` lines
163-246), processing a single postfix element. -/
def buildStep (bs : BuildState) (e : Expr) : Except String BuildState :=
  match e with
  | .literal c =>
    let (idx, nfa) := bs.nfa.add_state (.transition bs.counter (.id c) none)
    .ok ⟨nfa, .detached idx :: bs.stack, bs.counter + 1⟩
  | .charRange l r => do
    let chars ← NFA.range_chars l r
    let (idx, nfa) := bs.nfa.add_state (.transition bs.counter (.charCls chars) none)
    .ok ⟨nfa, .detached idx :: bs.stack, bs.counter + 1⟩
  | .concat =>
    match bs.stack with
    | [] => .error "Missing right fragment"
    | [_] => .error "Missing left fragment"
    | right :: left :: rest =>
      let (nfa, left) := bs.nfa.link_fragments left right
      .ok ⟨nfa, left :: rest, bs.counter + 1⟩
  | .alt =>
    match bs.stack with
    | [] => .error "Missing right fragment"
    | [_] => .error "Missing left fragment"
    | right :: left :: rest =>
      let (idx, nfa) := bs.nfa.add_state (.split bs.counter (some left.head) (some right.head))
      let nfa := if rest.isEmpty then ⟨idx, nfa.state_list⟩ else nfa
      .ok ⟨nfa, .multi_link idx left.out right.out :: rest, bs.counter + 1⟩
  | .opt =>
    match bs.stack with
    | [] => .error "Missing fragment for '?' operator"
    | e :: rest =>
      let (idx, nfa) := bs.nfa.add_state (.split bs.counter (some e.head) none)
      let nfa : NFA := ⟨idx, nfa.state_list⟩
      .ok ⟨nfa, .multi_link idx e.out [idx] :: rest, bs.counter + 1⟩
  | .star =>
    match bs.stack with
    | [] => .error "Missing fragment for '*' operator"
    | e :: rest =>
      let (idx, nfa) := bs.nfa.add_state (.split bs.counter (some e.head) none)
      let nfa := nfa.link_fragment e idx
      let nfa := if rest.isEmpty then ⟨idx, nfa.state_list⟩ else nfa
      .ok ⟨nfa, .detached idx :: rest, bs.counter + 1⟩
  | .plus =>
    match bs.stack with
    | [] => .error "Missing fragment for '+' operator"
    | e :: rest =>
      let (idx, nfa) := bs.nfa.add_state (.split bs.counter (some e.head) none)
      let nfa := nfa.link_fragment e idx
      .ok ⟨nfa, .single_link e.head idx :: rest, bs.counter + 1⟩

/-- The loop of `NFA::build` over the whole postfix sequence. -/
def processAll (exprs : List Expr) : Except String BuildState :=
  exprs.foldlM buildStep ⟨NFA.new, [], 0⟩

/-- `NFA::build` (`src/regex/nfa.rs` lines 158-252): run the loop, pop the
final fragment (error if the stack is empty; further leftover fragments are
not checked), append an `Accept` state and patch the popped fragment to it. -/
def NFA.build (exprs : List Expr) : Except String NFA :=
  match processAll exprs with
  | .error e => .error e
  | .ok bs =>
    match bs.stack with
    | [] => .error "No final fragment on stack"
    | f :: _ =>
      let (accept_idx, nfa) := bs.nfa.add_state (.accept bs.counter)
      .ok (nfa.link_fragments f (.detached accept_idx)).1

/-- `Matcher::compute_epsilon_closure` (`src/regex/matcher.rs` lines 43-63):
the states reachable from `state` through `Split` edges only, threading the
`seen` id set through the left branch and then the right branch. The Rust
recursion terminates because `seen` grows; here a fuel argument bounds the
depth, and every caller passes fuel exceeding the number of distinct ids. -/
def computeEC (nfa : NFA) : Nat → List Nat → RState → List RState × List Nat
  | 0, seen, _ => ([], seen)
  | fuel + 1, seen, state =>
    if state.get_id ∈ seen then ([], seen)
    else
      let seen := state.get_id :: seen
      match state with
      | .split i l r =>
        let (outL, seen) :=
          match l with
          | some idx => computeEC nfa fuel seen (nfa.get_state idx)
          | none => ([], seen)
        let (outR, seen) :=
          match r with
          | some idx => computeEC nfa fuel seen (nfa.get_state idx)
          | none => ([], seen)
        (RState.split i l r :: (outL ++ outR), seen)
      | st => ([st], seen)

/-- The epsilon-closure cache built by `Matcher::precompute_epsilon_closures`:
defined per index (a fresh `seen` set each time, as in the Rust), with the
map miss (`unwrap_or_default`) for out-of-range indices yielding `[]`. -/
def eccD (nfa : NFA) (idx : Nat) : List RState :=
  if idx < nfa.size then (computeEC nfa (nfa.size + 1) [] (nfa.get_state idx)).1
  else []

/-- One character step of `Matcher::matches` (`src/regex/matcher.rs` lines
68-79): matching `Transition` states contribute the cached closure of their
output (nothing when the output slot is unfilled); all other states die. -/
def stepSet (nfa : NFA) (current : List RState) (c : Char) : List RState :=
  current.flatMap fun st =>
    match st with
    | .transition _ cond out =>
      if cond.test c then
        match out with
        | some o => eccD nfa o
        | none => []
      else []
    | _ => []

/-- `RState.isAccept`: the final acceptance test of `Matcher::matches`. -/
def RState.isAccept : RState → Bool
  | .accept _ => true
  | _ => false

/-- `Matcher::matches` on a character list: fold the step over the input
starting from the closure of the head, accept iff an `Accept` state remains. -/
def NFA.matchesL (nfa : NFA) (l : List Char) : Bool :=
  ((l.foldl (stepSet nfa) (eccD nfa nfa.start)).any RState.isAccept)

/-- `Matcher::matches` on a string. -/
def NFA.matchesStr (nfa : NFA) (s : String) : Bool :=
  nfa.matchesL s.data

/-- `Token` from `src/regex/expr.rs`: the regex pattern tokens. -/
inductive RToken where
  | star
  | opt
  | plus
  | concat
  | alt
  | openParen
  | closedParen
  | lit (c : Char)
  | charRange (a b : Char)
  deriving DecidableEq, Repr

/-- `Token::precedence`. -/
def RToken.precedence : RToken → Nat
  | .star | .plus | .opt => 3
  | .concat => 2
  | .alt => 1
  | _ => 0

/-- `Token::is_op`. -/
def RToken.is_op : RToken → Bool
  | .lit _ => false
  | .charRange _ _ => false
  | _ => true

/-- `Token::to_expr`. -/
def RToken.to_expr : RToken → Option Expr
  | .star => some .star
  | .opt => some .opt
  | .plus => some .plus
  | .concat => some .concat
  | .alt => some .alt
  | .lit c => some (.literal c)
  | .charRange a b => some (.charRange a b)
  | _ => none

/-- `str::split_once` specialised to a character delimiter: the pieces before
and after the first occurrence, or `none` when the delimiter is absent. -/
def splitOnceChar (d : Char) : List Char → Option (List Char × List Char)
  | [] => none
  | c :: rest =>
    if c = d then some ([], rest)
    else (splitOnceChar d rest).map fun (l, r) => (c :: l, r)

/-- `Expr::process_range_token`: split the bracket buffer at the first `-`
and take the first character of each side. -/
def processRangeToken (buf : List Char) : Except String RToken :=
  match splitOnceChar '-' buf with
  | some (l, r) =>
    match l.head?, r.head? with
    | some a, some b => .ok (.charRange a b)
    | _, _ => .error "Invalid range"
  | none => .error "Invalid range"

/-- One character step of `Expr::tokenize` (`src/regex/expr.rs` lines 88-114).
The state is the optional bracket/escape buffer plus the emitted tokens; the
Rust `match` arms are tried in order, so a `]` closes the buffer even when the
buffer holds a lone backslash. -/
def tokStep : Option (List Char) × List RToken → Char → Except String (Option (List Char) × List RToken)
  | (none, out), c =>
    if c = '[' then .ok (some [], out)
    else if c = '\\' then .ok (some ['\\'], out)
    else if c = '(' then .ok (none, out ++ [.openParen])
    else if c = ')' then .ok (none, out ++ [.closedParen])
    else if c = '+' then .ok (none, out ++ [.plus])
    else if c = '.' then .ok (none, out ++ [.concat])
    else if c = '*' then .ok (none, out ++ [.star])
    else if c = '?' then .ok (none, out ++ [.opt])
    else if c = '|' then .ok (none, out ++ [.alt])
    else .ok (none, out ++ [.lit c])
  | (some buf, out), c =>
    if c = ']' then do
      let t ← processRangeToken buf
      .ok (none, out ++ [t])
    else if buf = ['\\'] then .ok (none, out ++ [.lit c])
    else .ok (some (buf ++ [c]), out)

/-- `Expr::tokenize`: fold the step over the pattern, failing if a bracket
buffer is still open at the end. -/
def tokenize (s : String) : Except String (List RToken) :=
  match s.data.foldlM tokStep (none, []) with
  | .error e => .error e
  | .ok (some _, _) => .error "Unclosed '['"
  | .ok (none, out) => .ok out

/-- The inner loop run on a `)` token in `Expr::parse_all`: pop operators to
the output until a token of precedence 0 (compared with `==`, which the Rust
`PartialEq` defines as equal precedence, i.e. the open parenthesis) or until
the stack is exhausted — an unmatched `)` pops nothing and raises no error. -/
def popUntilOpen : List RToken → List Expr → Except String (List RToken × List Expr)
  | [], out => .ok ([], out)
  | op :: rest, out =>
    if op.precedence = RToken.openParen.precedence then .ok (rest, out)
    else
      match op.to_expr with
      | some e => popUntilOpen rest (out ++ [e])
      | none => .error "Invalid token"

/-- The precedence-pop loop run on an operator token in `Expr::parse_all`:
pop while the top of the operator stack is an operator of greater or equal
precedence. The Rust unwraps `to_expr` there; that unwrap cannot fail because
parentheses have lower precedence than every operator. -/
def popGE (t : RToken) : List RToken → List Expr → List RToken × List Expr
  | [], out => ([], out)
  | op :: rest, out =>
    if op.is_op ∧ t.precedence ≤ op.precedence then
      match op.to_expr with
      | some e => popGE t rest (out ++ [e])
      | none => (op :: rest, out)
    else (op :: rest, out)

/-- One token step of `Expr::parse_all` (`src/regex/expr.rs` lines 127-150). -/
def parseStep : List RToken × List Expr → RToken → Except String (List RToken × List Expr)
  | (ops, out), t =>
    if t.is_op then
      match t with
      | .openParen => .ok (t :: ops, out)
      | .closedParen => popUntilOpen ops out
      | _ =>
        let (ops, out) := popGE t ops out
        .ok (t :: ops, out)
    else
      match t.to_expr with
      | some e => .ok (ops, out ++ [e])
      | none => .error "Invalid token"

/-- The final drain of `Expr::parse_all` (`src/regex/expr.rs` lines 151-159):
a leftover token of parenthesis precedence is an unmatched `(`. -/
def drainOps : List RToken → List Expr → Except String (List Expr)
  | [], out => .ok out
  | op :: rest, out =>
    if op.precedence = RToken.openParen.precedence then .error "Unmatched '('"
    else
      match op.to_expr with
      | some e => drainOps rest (out ++ [e])
      | none => .error "Invalid token"

/-- `Expr::parse_all`: shunting-yard from token list to postfix sequence. -/
def parse_all (tokens : List RToken) : Except String (List Expr) :=
  match tokens.foldlM parseStep ([], []) with
  | .error e => .error e
  | .ok (ops, out) => drainOps ops out

/-- `Expr::build`: tokenize then parse to postfix. -/
def Expr.build (s : String) : Except String (List Expr) :=
  match tokenize s with
  | .error e => .error e
  | .ok tokens => parse_all tokens

/-- `Matcher::new` without the cache object: compile the pattern to an NFA
(the epsilon-closure cache is the function `eccD`, computed per query with
the same value the Rust precomputes). -/
def matcherOf (pat : String) : Except String NFA := do
  NFA.build (← Expr.build pat)

/-- The NFA of a pattern, defaulting to the empty NFA when compilation fails
(the token-spec table in `src/lexer/tokens.rs` unwraps; every pattern there
compiles). -/
def nfaFor (pat : String) : NFA :=
  (matcherOf pat).toOption.getD ⟨0, []⟩

/-! ### Chain-shaped NFAs

Every delimiter and keyword pattern in the token-spec table compiles to a
chain of `Transition` states ending in the `Accept` state, with the head at
index 0. The following definitions and lemmas characterise whole-string
matching for such NFAs. -/

/-- The state list of a chain NFA: state `i + j` tests the `j`-th condition
and moves to `i + j + 1`; the last state accepts. -/
def chainStates (i : Nat) : List (Nat × Condition) → Nat → List RState
  | [], aid => [.accept aid]
  | (id, c) :: rest, aid => .transition id c (some (i + 1)) :: chainStates (i + 1) rest aid

/-- A chain NFA with head 0: the conditions (with their state ids) followed
by the accept state (with its id). -/
def chainNFA (idc : List (Nat × Condition)) (aid : Nat) : NFA :=
  ⟨0, chainStates 0 idc aid⟩

/-- Pointwise condition matching: the chain accepts exactly the strings of
the same length whose characters pass the successive conditions. -/
def condsMatch : List Condition → List Char → Bool
  | [], [] => true
  | cond :: cs, ch :: t => cond.test ch && condsMatch cs t
  | _, _ => false

/-- Decidable equality for `Except String`, used to evaluate the embedded
fallible functions at concrete inputs. -/
instance {α : Type} [DecidableEq α] : DecidableEq (Except String α) := fun x y =>
  match x, y with
  | .error a, .error b =>
    if h : a = b then isTrue (h ▸ rfl) else isFalse (by intro hc; cases hc; exact h rfl)
  | .error _, .ok _ => isFalse (by intro hc; cases hc)
  | .ok _, .error _ => isFalse (by intro hc; cases hc)
  | .ok a, .ok b =>
    if h : a = b then isTrue (h ▸ rfl) else isFalse (by intro hc; cases hc; exact h rfl)

/-! ### Lexer embedding (`src/diag/mod.rs`, `src/lexer/tokens.rs`,
`src/lexer/lexer.rs`) -/

/-- `Position` from `src/diag/mod.rs`: byte offset, line and column. -/
structure Position where
  offset : Nat
  line : Nat
  column : Nat
  deriving DecidableEq, Repr

/-- `Position::new`. -/
def Position.new : Position := ⟨0, 0, 0⟩

/-- `Position::advance`: the offset grows by the character's UTF-8 byte
length; a newline bumps the line and resets the column. -/
def Position.advance (p : Position) (ch : Char) : Position :=
  ⟨p.offset + ch.utf8Size,
   if ch = '\n' then p.line + 1 else p.line,
   if ch = '\n' then 0 else p.column + 1⟩

/-- `Span` from `src/diag/mod.rs` (the Rust field `end` is `stop` here). -/
structure Span where
  start : Position
  stop : Position
  deriving DecidableEq, Repr

/-- `TokenKind` from `src/lexer/tokens.rs` (`Section` is `sectionTok`,
`OList`/`UList`/`LItem` are `olist`/`ulist`/`litem`). -/
inductive TokenKind where
  | sectionTok
  | article
  | paragraph
  | lbrace
  | rbrace
  | lparen
  | rparen
  | heading (s : String)
  | aside
  | olist
  | ulist
  | litem
  | code
  | textBlock (s : String)
  | ident (s : String)
  deriving DecidableEq, Repr

/-- `Token` from `src/lexer/tokens.rs`. -/
structure LToken where
  kind : TokenKind
  span : Span
  deriving DecidableEq, Repr

/-- `TokenSpec` from `src/lexer/tokens.rs`: a compiled matcher plus the kind
constructor receiving the matched substring. -/
structure TokenSpec where
  matcher : NFA
  to_kind : String → TokenKind

/-- `TokenSpec::try_match`. -/
def TokenSpec.try_match (spec : TokenSpec) (input : String) : Option TokenKind :=
  if spec.matcher.matchesStr input then some (spec.to_kind input) else none

/-- `token_specs` from `src/lexer/tokens.rs`: the ordered spec table (the
Rust unwraps each `Matcher::new`; every pattern compiles, and `nfaFor`
returns the same NFA). -/
def token_specs : List TokenSpec :=
  [⟨nfaFor "\\\x7b", fun _ => .lbrace⟩,
   ⟨nfaFor "\\\x7d", fun _ => .rbrace⟩,
   ⟨nfaFor "\\(", fun _ => .lparen⟩,
   ⟨nfaFor "\\)", fun _ => .rparen⟩,
   ⟨nfaFor "(s.e.c.t.i.o.n)", fun _ => .sectionTok⟩,
   ⟨nfaFor "(a.r.t.i.c.l.e)", fun _ => .article⟩,
   ⟨nfaFor "(p.a.r.a.g.r.a.p.h)", fun _ => .paragraph⟩,
   ⟨nfaFor "(h.[1-3])", fun s => .heading s⟩,
   ⟨nfaFor "(a.s.i.d.e)", fun _ => .aside⟩,
   ⟨nfaFor "(o.l)", fun _ => .olist⟩,
   ⟨nfaFor "(u.l)", fun _ => .ulist⟩,
   ⟨nfaFor "(l.i)", fun _ => .litem⟩,
   ⟨nfaFor "(c.o.d.e)", fun _ => .code⟩,
   ⟨nfaFor "(`)", fun s => .textBlock s⟩,
   ⟨nfaFor "(([a-z]|[A-Z]|[0-9])*)", fun s => .ident s⟩]

/-- `Mode` from `src/lexer/lexer.rs`. -/
inductive Mode where
  | normal
  | block
  deriving DecidableEq, Repr

/-- The lexer's cursor state. The Rust `Lexer` keeps the whole input and a
byte-offset `Position` and always reads `input[position.offset()..]`; here
`rest` is that suffix (offsets stay on character boundaries in every
execution), alongside the same `Position` and the mode. -/
structure LexState where
  rest : List Char
  pos : Position
  mode : Mode
  deriving DecidableEq, Repr

/-- `LexerErrorKind` from `src/lexer/error.rs`. -/
inductive LexerErrorKind where
  | unexpectedChar (c : Char)
  | unterminatedBlock
  | unexpectedEOF
  deriving DecidableEq, Repr

/-- `LexerError` from `src/lexer/error.rs` (the owned source copy, used only
for snippet rendering, is omitted). -/
structure LexerError where
  kind : LexerErrorKind
  span : Span
  deriving DecidableEq, Repr

/-- `Lexer::advance_char`: consume one character, advancing the position. -/
def advanceChar (st : LexState) : LexState :=
  match st.rest with
  | [] => st
  | c :: t => ⟨t, st.pos.advance c, st.mode⟩

/-- `advance_char` iterated `n` times. -/
def advanceN (st : LexState) : Nat → LexState
  | 0 => st
  | n + 1 => advanceN (advanceChar st) n

/-- `Lexer::skip_whitespace` on the remaining input and position. -/
def skipWs : List Char → Position → List Char × Position
  | [], p => ([], p)
  | c :: t, p => if c.isWhitespace then skipWs t (p.advance c) else (c :: t, p)

/-- The inner loop of `Lexer::best_match`: try the specs in order against the
candidate, first match wins. -/
def firstTryMatch (specs : List TokenSpec) (cand : List Char) : Option TokenKind :=
  match specs with
  | [] => none
  | sp :: rest =>
    match sp.try_match (String.mk cand) with
    | some k => some k
    | none => firstTryMatch rest cand

/-- The expanding-window loop of `Lexer::best_match` (`src/lexer/lexer.rs`
lines 104-141): grow the candidate one character at a time while some spec
matches, remembering the last `(kind, length)` that matched. -/
def bestMatchAux (specs : List TokenSpec) :
    List Char → List Char → Nat → Option (TokenKind × Nat) → Option (TokenKind × Nat)
  | [], _, _, last => last
  | c :: rest, cand, count, last =>
    match firstTryMatch specs (cand ++ [c]) with
    | some kind => bestMatchAux specs rest (cand ++ [c]) (count + 1) (some (kind, count + 1))
    | none => last

/-- `Lexer::best_match` without the cursor advance: the `(kind, length)` it
commits to at the given remaining input. -/
def bestMatch (specs : List TokenSpec) (input : List Char) : Option (TokenKind × Nat) :=
  bestMatchAux specs input [] 0 none

/-- `Lexer::lex_block` (`src/lexer/lexer.rs` lines 75-95): take the text up
to the next backtick (a byte slice, taken before any cursor movement), then
advance the cursor once per BYTE of that text and once more, and return to
normal mode. -/
def lexBlock (st : LexState) : Except LexerError (LToken × LexState) :=
  let start := st.pos
  if '`' ∈ st.rest then
    let text := st.rest.takeWhile (fun c => c ≠ '`')
    let byteLen := (text.map Char.utf8Size).sum
    let st1 := advanceN st (byteLen + 1)
    .ok (⟨.textBlock (String.mk text), ⟨start, st1.pos⟩⟩, ⟨st1.rest, st1.pos, .normal⟩)
  else
    .error ⟨.unterminatedBlock, ⟨start, st.pos⟩⟩

/-- `Lexer::lex_normal` (`src/lexer/lexer.rs` lines 53-71): longest match at
the cursor; the backtick sentinel switches to block mode and re-enters
`lex_block`; no match is an `UnexpectedChar` error. -/
def lexNormal (st : LexState) : Except LexerError (LToken × LexState) :=
  let start := st.pos
  match bestMatch token_specs st.rest with
  | some (kind, count) =>
    let st1 := advanceN st count
    match kind with
    | .textBlock s =>
      if s = "`" then lexBlock ⟨st1.rest, st1.pos, .block⟩
      else .ok (⟨.textBlock s, ⟨start, st1.pos⟩⟩, st1)
    | k => .ok (⟨k, ⟨start, st1.pos⟩⟩, st1)
  | none =>
    .error ⟨.unexpectedChar (st.rest.headD ' '), ⟨start, st.pos⟩⟩

/-- `Lexer::next_token`: skip whitespace, stop at end of input, then lex
according to the mode. -/
def nextToken (st : LexState) : Option (Except LexerError (LToken × LexState)) :=
  let (rest, pos) := skipWs st.rest st.pos
  let st : LexState := ⟨rest, pos, st.mode⟩
  if st.rest.isEmpty then none
  else
    some (match st.mode with
      | .normal => lexNormal st
      | .block => lexBlock st)

/-- Draining the lexer iterator into a token list. The Rust iterator needs no
fuel (every emitted token consumes input); the fuel argument only bounds the
recursion, and callers pass more fuel than the input length. -/
def lexAll : Nat → LexState → Option (Except LexerError (List LToken))
  | 0, _ => none
  | fuel + 1, st =>
    match nextToken st with
    | none => some (.ok [])
    | some (.error e) => some (.error e)
    | some (.ok (tok, st1)) =>
      match lexAll fuel st1 with
      | none => none
      | some (.error e) => some (.error e)
      | some (.ok toks) => some (.ok (tok :: toks))

/-- Lex a whole source string from the start, in normal mode. -/
def lexString (s : String) : Option (Except LexerError (List LToken)) :=
  lexAll (s.data.length + 1) ⟨s.data, Position.new, .normal⟩

/-! ### Characterising the token-spec matchers -/

/-- The lower-case character class compiled from `[a-z]`. -/
def azChars : List Char :=
  ['a', 'b', 'c', 'd', 'e', 'f', 'g', 'h', 'i', 'j', 'k', 'l', 'm',
   'n', 'o', 'p', 'q', 'r', 's', 't', 'u', 'v', 'w', 'x', 'y', 'z']

/-- The upper-case character class compiled from `[A-Z]`. -/
def uzChars : List Char :=
  ['A', 'B', 'C', 'D', 'E', 'F', 'G', 'H', 'I', 'J', 'K', 'L', 'M',
   'N', 'O', 'P', 'Q', 'R', 'S', 'T', 'U', 'V', 'W', 'X', 'Y', 'Z']

/-- The digit character class compiled from `[0-9]`. -/
def digChars : List Char :=
  ['0', '1', '2', '3', '4', '5', '6', '7', '8', '9']

/-- Membership in one of the three classes of the `Ident` pattern. -/
def isAlnumB (c : Char) : Bool :=
  azChars.contains c || uzChars.contains c || digChars.contains c

/-- The NFA compiled from the `Ident` pattern `(([a-z]|[A-Z]|[0-9])*)`. -/
def identNFA : NFA :=
  ⟨5, [.transition 0 (.charCls azChars) (some 5),
       .transition 1 (.charCls uzChars) (some 5),
       .split 2 (some 0) (some 1),
       .transition 3 (.charCls digChars) (some 5),
       .split 4 (some 2) (some 3),
       .split 5 (some 4) (some 6),
       .accept 6]⟩

/-- The start set (epsilon closure of the head) of the `Ident` NFA. -/
def identStart : List RState :=
  [.split 5 (some 4) (some 6),
   .split 4 (some 2) (some 3),
   .split 2 (some 0) (some 1),
   .transition 0 (.charCls azChars) (some 5),
   .transition 1 (.charCls uzChars) (some 5),
   .transition 3 (.charCls digChars) (some 5),
   .accept 6]

/-- The condition list of a keyword pattern: one literal condition per
character. -/
def kwConds (s : String) : List Condition := s.data.map Condition.id

/-- The condition list of the heading pattern `(h.[1-3])`. -/
def headingConds : List Condition := [.id 'h', .charCls ['1', '2', '3']]

/-- The first-match cascade of the built-in token-spec table, written out
over the compiled matchers' characterisations. -/
def specKindAt (w : List Char) : Option TokenKind :=
  if condsMatch [Condition.id '{'] w then some .lbrace
  else if condsMatch [Condition.id '}'] w then some .rbrace
  else if condsMatch [Condition.id '('] w then some .lparen
  else if condsMatch [Condition.id ')'] w then some .rparen
  else if condsMatch (kwConds "section") w then some .sectionTok
  else if condsMatch (kwConds "article") w then some .article
  else if condsMatch (kwConds "paragraph") w then some .paragraph
  else if condsMatch headingConds w then some (.heading (String.mk w))
  else if condsMatch (kwConds "aside") w then some .aside
  else if condsMatch (kwConds "ol") w then some .olist
  else if condsMatch (kwConds "ul") w then some .ulist
  else if condsMatch (kwConds "li") w then some .litem
  else if condsMatch (kwConds "code") w then some .code
  else if condsMatch [Condition.id '`'] w then some (.textBlock (String.mk w))
  else if w.all isAlnumB then some (.ident (String.mk w))
  else none

/-- The keyword strings recognised by non-`Ident` specs. -/
def kwStrings : List String :=
  ["section", "article", "paragraph", "aside", "ol", "ul", "li", "code"]

/-- The structural keyword spellings, headings included. -/
def keywordStrings : List String :=
  ["section", "article", "paragraph", "aside", "ol", "ul", "li", "code", "h1", "h2", "h3"]

/-! ### Parser embedding (`src/parser/parser.rs`) -/

/-- `ArticleDeclaration`. -/
structure ArticleDeclaration where
  name : String
  section_calls : List String
  deriving DecidableEq, Repr

/-- `List` from `src/parser/parser.rs` (renamed `BList`: `List` is taken). -/
inductive BList where
  | ordered (items : List String)
  | unordered (items : List String)
  deriving DecidableEq, Repr

/-- `Statement`. -/
inductive Statement where
  | heading (level text : String)
  | textBlock (text : String)
  | codeBlock (text : String)
  | aside (text : String)
  | list (l : BList)
  deriving DecidableEq, Repr

/-- `Paragraph`. -/
structure Paragraph where
  statements : List Statement
  deriving DecidableEq, Repr

/-- `SectionDeclaration`. -/
structure SectionDeclaration where
  name : String
  paragraphs : List Paragraph
  deriving DecidableEq, Repr

/-- `Program`. The Rust `sections` is a `HashMap<String, SectionDeclaration>`
keyed by name; it is modelled as an association list (the parser rejects
duplicate keys, so lookup is independent of representation order). -/
structure Program where
  article : ArticleDeclaration
  sections : List (String × SectionDeclaration)
  deriving DecidableEq, Repr

/-- `HashMap::get` on the association list. -/
def sectionsGet (secs : List (String × SectionDeclaration)) (name : String) :
    Option SectionDeclaration :=
  (secs.find? (fun p => p.1 == name)).map Prod.snd

/-- `AstNode` (the Rust variants hold references; values here). `Section` is
rendered `sectionNode`. -/
inductive AstNode where
  | article (a : ArticleDeclaration)
  | sectionNode (s : SectionDeclaration)
  | paragraph (p : Paragraph)
  | statement (s : Statement)
  | list (l : BList)
  deriving DecidableEq, Repr

/-- `AstNode::children` (`src/parser/parser.rs` lines 66-88): an article's
children are its section calls resolved by name (unresolved names silently
skipped); only `Statement::List` has a child below the statement level. -/
def children (P : Program) : AstNode → List AstNode
  | .article a =>
    a.section_calls.filterMap fun n => (sectionsGet P.sections n).map AstNode.sectionNode
  | .sectionNode s => s.paragraphs.map AstNode.paragraph
  | .paragraph p => p.statements.map AstNode.statement
  | .statement st =>
    match st with
    | .list l => [AstNode.list l]
    | _ => []
  | .list _ => []

/-- Node weight used to justify termination of the stack iterator: a node
weighs one more than the sum of its children's weights. -/
def wStatement : Statement → Nat
  | .list _ => 2
  | _ => 1

/-- Weight of a paragraph node. -/
def wParagraph (p : Paragraph) : Nat := 1 + (p.statements.map wStatement).sum

/-- Weight of a section node. -/
def wSection (s : SectionDeclaration) : Nat := 1 + (s.paragraphs.map wParagraph).sum

/-- Weight of any node, relative to the program used for section lookup. -/
def weight (P : Program) : AstNode → Nat
  | .article a =>
    1 + ((a.section_calls.filterMap (sectionsGet P.sections)).map wSection).sum
  | .sectionNode s => wSection s
  | .paragraph p => wParagraph p
  | .statement st => wStatement st
  | .list _ => 1

/-- `ASTIterator` (`src/parser/parser.rs` lines 104-115) run to exhaustion:
pop the top node, push its children in reverse (so the leftmost child is the
next top), yield the popped node. The list head is the stack top, so the new
stack is `children ++ rest`. -/
def iterRun (P : Program) (stack : List AstNode) : List AstNode :=
  match stack with
  | [] => []
  | n :: rest => n :: iterRun P (children P n ++ rest)
termination_by (stack.map (weight P)).sum
decreasing_by
  simp only [List.map_append, List.sum_append, List.map_cons, List.sum_cons]
  have h : ((children P n).map (weight P)).sum + 1 = weight P n := by
      cases n with
      | article a =>
        simp only [children, weight]
        have hmap : (a.section_calls.filterMap
              fun n => (sectionsGet P.sections n).map AstNode.sectionNode).map (weight P) =
            (a.section_calls.filterMap (sectionsGet P.sections)).map wSection := by
          induction a.section_calls with
          | nil => rfl
          | cons c rest ih =>
            cases h : sectionsGet P.sections c with
            | none => simp [List.filterMap_cons, h, ih]
            | some s => simp [List.filterMap_cons, h, ih, weight]
        rw [hmap]
        omega
      | sectionNode s =>
        simp only [children, weight, wSection, List.map_map]
        have : (weight P ∘ AstNode.paragraph) = wParagraph := rfl
        rw [this]
        omega
      | paragraph p =>
        simp only [children, weight, wParagraph, List.map_map]
        have : (weight P ∘ AstNode.statement) = wStatement := rfl
        rw [this]
        omega
      | statement st =>
        cases st <;> simp [children, weight, wStatement]
      | list l => simp [children, weight]
  omega

/-- `Program::iter_ast` drained into a list: the stack starts as the single
article node. -/
def iterAst (P : Program) : List AstNode := iterRun P [.article P.article]

/-- Recursive preorder of a statement node. -/
def preorderStatement (st : Statement) : List AstNode :=
  AstNode.statement st ::
    (match st with
     | .list l => [AstNode.list l]
     | _ => [])

/-- Recursive preorder of a paragraph node. -/
def preorderParagraph (p : Paragraph) : List AstNode :=
  AstNode.paragraph p :: p.statements.flatMap preorderStatement

/-- Recursive preorder of a section node. -/
def preorderSection (s : SectionDeclaration) : List AstNode :=
  AstNode.sectionNode s :: s.paragraphs.flatMap preorderParagraph

/-- Recursive preorder below an arbitrary node. -/
def preorderNode (P : Program) : AstNode → List AstNode
  | .article a =>
    AstNode.article a ::
      (a.section_calls.filterMap (sectionsGet P.sections)).flatMap preorderSection
  | .sectionNode s => preorderSection s
  | .paragraph p => preorderParagraph p
  | .statement st => preorderStatement st
  | .list l => [AstNode.list l]

/-- `ParserError` from `src/parser/error.rs`, structured: the Rust stores a
rendered message plus span; here each error site is its own constructor
carrying the data the message is built from. -/
inductive ParserError where
  | multipleArticles (span : Span)
  | duplicateSection (name : String) (span : Span)
  | unexpectedTopLevel (t : LToken)
  | missingArticle
  | unexpectedStatement (t : LToken)
  | endOfInputStatement
  | expectedHeadingContent (found : TokenKind) (span : Span)
  | expectedTextBlockInCode (span : Span)
  | expectedAside (found : TokenKind) (span : Span)
  | expectedList (t : LToken)
  | expectedListItem (found : TokenKind) (span : Span)
  | expected (expected found : TokenKind) (span : Span)
  | expectedIdent (found : TokenKind) (span : Span)
  | unexpectedEnd
  | lexer (e : LexerError)
  deriving DecidableEq, Repr

/-- `Parser::next_token`: take the next token or fail at end of input. The
token stream is the pre-lexed token list (the Rust pulls tokens lazily from
the lexer; for inputs that lex without error the streams agree). -/
def nextTok (ts : List LToken) : Except ParserError (LToken × List LToken) :=
  match ts with
  | [] => .error .unexpectedEnd
  | t :: rest => .ok (t, rest)

/-- `Parser::expect_token`. -/
def expect_token (expected : TokenKind) (ts : List LToken) :
    Except ParserError (List LToken) := do
  let (t, rest) ← nextTok ts
  if t.kind = expected then .ok rest else .error (.expected expected t.kind t.span)

/-- `Parser::expect_ident` (also `expect_ident_dynamic`). -/
def expect_ident (ts : List LToken) : Except ParserError (String × List LToken) :=
  match ts with
  | [] => .error .unexpectedEnd
  | t :: rest =>
    match t.kind with
    | .ident s => .ok (s, rest)
    | other => .error (.expectedIdent other t.span)

/-- The loop of `Parser::parse_until` with explicit fuel (each call of `f`
consumes at least one token in every reachable execution, so fuel beyond the
stream length is never exhausted). -/
def parseUntilGo {α : Type} (endKind : TokenKind)
    (f : List LToken → Except ParserError (α × List LToken)) :
    Nat → List LToken → Except ParserError (List α × List LToken)
  | 0, _ => .error .unexpectedEnd
  | fuel + 1, ts =>
    match ts.head? with
    | none => .ok ([], ts)
    | some t =>
      if t.kind = endKind then .ok ([], ts)
      else do
        let (item, ts2) ← f ts
        let (items, ts3) ← parseUntilGo endKind f fuel ts2
        .ok (item :: items, ts3)

/-- `Parser::parse_until`. -/
def parse_until {α : Type} (endKind : TokenKind)
    (f : List LToken → Except ParserError (α × List LToken)) (ts : List LToken) :
    Except ParserError (List α × List LToken) :=
  parseUntilGo endKind f (ts.length + 1) ts

/-- `Parser::parse_list_item`. -/
def parse_list_item (ts : List LToken) : Except ParserError (String × List LToken) := do
  let ts ← expect_token .litem ts
  let ts ← expect_token .lbrace ts
  let (t, ts) ← nextTok ts
  match t.kind with
  | .textBlock text | .ident text => do
    let ts ← expect_token .rbrace ts
    .ok (text, ts)
  | other => .error (.expectedListItem other t.span)

/-- `Parser::parse_list`. -/
def parse_list (ts : List LToken) : Except ParserError (BList × List LToken) := do
  let (list_token, ts) ← nextTok ts
  let is_ordered ←
    match list_token.kind with
    | .olist => Except.ok true
    | .ulist => Except.ok false
    | _ => Except.error (.expectedList list_token)
  let ts ← expect_token .lbrace ts
  let (items, ts) ← parse_until .rbrace parse_list_item ts
  let ts ← expect_token .rbrace ts
  .ok (if is_ordered then .ordered items else .unordered items, ts)

/-- `Parser::parse_heading_content`. -/
def parse_heading_content (ts : List LToken) :
    Except ParserError (String × List LToken) := do
  let (t, ts) ← nextTok ts
  match t.kind with
  | .ident text | .textBlock text => .ok (text, ts)
  | other => .error (.expectedHeadingContent other t.span)

/-- `Parser::parse_aside`. -/
def parse_aside (ts : List LToken) : Except ParserError (Statement × List LToken) := do
  let ts ← expect_token .aside ts
  let ts ← expect_token .lbrace ts
  let (t, ts) ← nextTok ts
  let content ←
    match t.kind with
    | .textBlock text | .ident text => Except.ok text
    | other => Except.error (ParserError.expectedAside other t.span)
  let ts ← expect_token .rbrace ts
  .ok (.aside content, ts)

/-- `Parser::parse_statement`. -/
def parse_statement (ts : List LToken) : Except ParserError (Statement × List LToken) :=
  match ts.head? with
  | some t =>
    match t.kind with
    | .heading h => do
      let (_, ts) ← nextTok ts
      let ts ← expect_token .lbrace ts
      let (content, ts) ← parse_heading_content ts
      let ts ← expect_token .rbrace ts
      .ok (.heading h content, ts)
    | .textBlock text => do
      let (_, ts) ← nextTok ts
      .ok (.textBlock text, ts)
    | .code => do
      let (_, ts) ← nextTok ts
      let ts ← expect_token .lbrace ts
      let (tb, ts) ← nextTok ts
      let ts ← expect_token .rbrace ts
      match tb.kind with
      | .textBlock code_text => .ok (.codeBlock code_text, ts)
      | _ => .error (.expectedTextBlockInCode tb.span)
    | .aside => parse_aside ts
    | .olist | .ulist => do
      let (l, ts) ← parse_list ts
      .ok (.list l, ts)
    | _ => .error (.unexpectedStatement t)
  | none => .error .endOfInputStatement

/-- `Parser::parse_paragraph`. -/
def parse_paragraph (ts : List LToken) : Except ParserError (Paragraph × List LToken) := do
  let ts ← expect_token .paragraph ts
  let ts ← expect_token .lbrace ts
  let (statements, ts) ← parse_until .rbrace parse_statement ts
  let ts ← expect_token .rbrace ts
  .ok (⟨statements⟩, ts)

/-- `Parser::parse_article_declaration` (an article name is optional: a brace
right after `article` means the empty name). -/
def parse_article_declaration (ts : List LToken) :
    Except ParserError (ArticleDeclaration × List LToken) := do
  let ts ← expect_token .article ts
  let (name, ts) ←
    match ts.head? with
    | some t =>
      if t.kind = .lbrace then Except.ok ("", ts) else expect_ident ts
    | none => expect_ident ts
  let ts ← expect_token .lbrace ts
  let (section_calls, ts) ← parse_until .rbrace expect_ident ts
  let ts ← expect_token .rbrace ts
  .ok (⟨name, section_calls⟩, ts)

/-- `Parser::parse_section_declaration`. -/
def parse_section_declaration (ts : List LToken) :
    Except ParserError (SectionDeclaration × List LToken) := do
  let ts ← expect_token .sectionTok ts
  let (name, ts) ← expect_ident ts
  let ts ← expect_token .lbrace ts
  let (paragraphs, ts) ← parse_until .rbrace parse_paragraph ts
  let ts ← expect_token .rbrace ts
  .ok (⟨name, paragraphs⟩, ts)

/-- The loop of `Parser::parse` with explicit fuel: at most one article, a
section is parsed before its name is checked against the map, anything else
at the top level is an error; at end of stream the article must exist. -/
def parseProgramGo : Nat → Option ArticleDeclaration →
    List (String × SectionDeclaration) → List LToken → Except ParserError Program
  | 0, _, _, _ => .error .unexpectedEnd
  | fuel + 1, articleOpt, sections, ts =>
    match ts.head? with
    | none =>
      match articleOpt with
      | some a => .ok ⟨a, sections⟩
      | none => .error .missingArticle
    | some t =>
      match t.kind with
      | .article =>
        if articleOpt.isSome then .error (.multipleArticles t.span)
        else do
          let (a, ts2) ← parse_article_declaration ts
          parseProgramGo fuel (some a) sections ts2
      | .sectionTok => do
        let (sec, ts2) ← parse_section_declaration ts
        if sections.any (fun p => p.1 == sec.name) then
          .error (.duplicateSection sec.name t.span)
        else
          parseProgramGo fuel articleOpt (sections ++ [(sec.name, sec)]) ts2
      | _ => .error (.unexpectedTopLevel t)

/-- `Parser::parse` on a token list. -/
def parseProgram (ts : List LToken) : Except ParserError Program :=
  parseProgramGo (ts.length + 1) none [] ts

/-- Lex and parse a source string. -/
def parseSource (src : String) : Option (Except ParserError Program) :=
  match lexString src with
  | none => none
  | some (.error e) => some (.error (.lexer e))
  | some (.ok toks) => some (parseProgram toks)

/-! ### Code generator embedding (`src/backend/codegen.rs`) -/

/-- `Generator::generate_list`: the open tag line, one `<li>` line per item,
the closing tag line (each `write_buf` appends a newline). -/
def generate_list : BList → String
  | .ordered items =>
    "<ol className='list-inside list-decimal px-8'>\n" ++
      String.join (items.map fun i => "<li>" ++ i ++ "</li>\n") ++ "</ol>\n"
  | .unordered items =>
    "<ul className='list-disc list-inside px-8'>\n" ++
      String.join (items.map fun i => "<li>" ++ i ++ "</li>\n") ++ "</ul>\n"

/-- `Generator::generate_statement`. -/
def generate_statement : Statement → String
  | .heading _ c => "<h3 className='text-3xl'>" ++ c ++ "</h3>\n"
  | .textBlock c => "<p>" ++ c ++ "</p>\n"
  | .codeBlock c =>
    "<pre className='w-full overflow-x-auto'><code>\x7b`" ++ c ++ "`\x7d</code></pre>\n"
  | .aside c =>
    "\n            <div className='p-8 bg-opacity-10 bg-black italic'>\n                <p>" ++
      c ++ "</p>\n            </div>\n            \n"
  | .list l => generate_list l

/-- One node's output in `Generator::compile`: the article heading line, a
`<br/>` line per section and per paragraph visit, the statement templates,
and nothing for a bare `List` node (handled at the statement visit). -/
def generateNode : AstNode → String
  | .article a => "<h1 className='text-4xl font-bold'>" ++ a.name ++ "</h1>\n"
  | .sectionNode _ => "<br/>\n"
  | .paragraph _ => "<br/>\n"
  | .statement st => generate_statement st
  | .list _ => ""

/-- `Generator::compile` into a string sink (writes to a `String` buffer
cannot fail, so the `Result` collapses to the concatenation in iteration
order). -/
def compileProgram (P : Program) : String :=
  String.join ((iterAst P).map generateNode)

/-- The whole pipeline: lex, parse, generate. -/
def compileSource (src : String) : Option (Except ParserError String) :=
  match parseSource src with
  | none => none
  | some (.error e) => some (.error e)
  | some (.ok P) => some (.ok (compileProgram P))

theorem chainStates_length (idc : List (Nat × Condition)) (aid : Nat) :
    ∀ i, (chainStates i idc aid).length = idc.length + 1 := by
  induction idc with
  | nil => intro i; rfl
  | cons p rest ih => intro i; simp [chainStates, ih]

theorem chainStates_get_lt (idc : List (Nat × Condition)) (aid : Nat) :
    ∀ i j, (h : j < idc.length) →
      (chainStates i idc aid).get? j =
        some (.transition (idc.get ⟨j, h⟩).1 (idc.get ⟨j, h⟩).2 (some (i + j + 1))) := by
  induction idc with
  | nil => intro i j h; exact absurd h (by simp)
  | cons p rest ih =>
    intro i j h
    match j with
    | 0 => simp [chainStates]
    | j + 1 =>
      have hj : j < rest.length := by simpa using h
      simp only [chainStates, List.get?_cons_succ]
      rw [ih (i + 1) j hj]
      simp [Nat.add_assoc, Nat.add_comm 1 j]

theorem chainStates_get_last (idc : List (Nat × Condition)) (aid : Nat) :
    ∀ i, (chainStates i idc aid).get? idc.length = some (.accept aid) := by
  induction idc with
  | nil => intro i; rfl
  | cons p rest ih => intro i; simpa [chainStates] using ih (i + 1)

theorem computeEC_transition (nfa : NFA) (fuel : Nat) (seen : List Nat)
    (a : Nat) (b : Condition) (c : Option Nat) (h : a ∉ seen) :
    computeEC nfa (fuel + 1) seen (.transition a b c) = ([.transition a b c], a :: seen) := by
  simp [computeEC, RState.get_id, h]

theorem computeEC_accept (nfa : NFA) (fuel : Nat) (seen : List Nat)
    (a : Nat) (h : a ∉ seen) :
    computeEC nfa (fuel + 1) seen (.accept a) = ([.accept a], a :: seen) := by
  simp [computeEC, RState.get_id, h]

/-- For an NFA whose state at `j` is not a `Split`, the cached closure of an
in-range index `j` is that single state. -/
theorem eccD_nonsplit (nfa : NFA) (j : Nat) (hj : j < nfa.size)
    (h : ∀ i l r, nfa.get_state j ≠ .split i l r) :
    eccD nfa j = [nfa.get_state j] := by
  unfold eccD
  rw [if_pos hj]
  rcases hfuel : nfa.size + 1 with _ | fuel
  · omega
  · cases hst : nfa.get_state j with
    | transition a b c => rw [computeEC_transition nfa fuel [] a b c (by simp)]
    | split i l r => exact absurd hst (h i l r)
    | accept a => rw [computeEC_accept nfa fuel [] a (by simp)]

theorem stepSet_nil (nfa : NFA) (c : Char) : stepSet nfa [] c = [] := rfl

theorem foldl_stepSet_nil (nfa : NFA) (l : List Char) :
    l.foldl (stepSet nfa) [] = [] := by
  induction l with
  | nil => rfl
  | cons c t ih => simpa [stepSet_nil] using ih

theorem stepSet_transition (nfa : NFA) (a : Nat) (cond : Condition) (o : Nat) (c : Char) :
    stepSet nfa [.transition a cond (some o)] c =
      if cond.test c then eccD nfa o else [] := by
  simp [stepSet]

theorem stepSet_accept (nfa : NFA) (a : Nat) (c : Char) :
    stepSet nfa [.accept a] c = [] := by
  simp [stepSet]

theorem chainNFA_get_state_lt (idc : List (Nat × Condition)) (aid : Nat) (j : Nat)
    (h : j < idc.length) :
    (chainNFA idc aid).get_state j =
      .transition idc[j].1 idc[j].2 (some (j + 1)) := by
  have hg := chainStates_get_lt idc aid 0 j h
  simp only [NFA.get_state, chainNFA, List.getD_eq_getElem?_getD]
  rw [← List.get?_eq_getElem?, hg]
  simp

theorem chainNFA_get_state_last (idc : List (Nat × Condition)) (aid : Nat) :
    (chainNFA idc aid).get_state idc.length = .accept aid := by
  have hg := chainStates_get_last idc aid 0
  simp only [NFA.get_state, chainNFA, List.getD_eq_getElem?_getD]
  rw [← List.get?_eq_getElem?, hg]
  rfl

theorem chainNFA_size (idc : List (Nat × Condition)) (aid : Nat) :
    (chainNFA idc aid).size = idc.length + 1 := by
  simp [NFA.size, chainNFA, chainStates_length]

theorem chainNFA_get_nonsplit (idc : List (Nat × Condition)) (aid : Nat) (j : Nat)
    (hj : j ≤ idc.length) : ∀ i l r, (chainNFA idc aid).get_state j ≠ .split i l r := by
  intro i l r
  rcases Nat.lt_or_ge j idc.length with h | h
  · rw [chainNFA_get_state_lt idc aid j h]; intro hc; exact RState.noConfusion hc
  · have : j = idc.length := le_antisymm hj h
    subst this
    rw [chainNFA_get_state_last idc aid]; intro hc; exact RState.noConfusion hc

/-- The active-set fold on a chain NFA started at state `j` accepts exactly
the character lists that pass the remaining conditions. -/
theorem chain_fold (idc : List (Nat × Condition)) (aid : Nat) (l : List Char) :
    ∀ j, j ≤ idc.length →
      ((l.foldl (stepSet (chainNFA idc aid)) (eccD (chainNFA idc aid) j)).any RState.isAccept) =
        condsMatch ((idc.map Prod.snd).drop j) l := by
  induction l with
  | nil =>
    intro j hj
    rw [eccD_nonsplit _ j (by rw [chainNFA_size]; omega) (chainNFA_get_nonsplit idc aid j hj)]
    rcases Nat.lt_or_ge j idc.length with h | h
    · rw [chainNFA_get_state_lt idc aid j h]
      rw [List.drop_eq_getElem_cons (by simpa using h)]
      simp [condsMatch, RState.isAccept]
    · have hje : j = idc.length := le_antisymm hj h
      subst hje
      rw [chainNFA_get_state_last idc aid]
      have hd : (idc.map Prod.snd).drop idc.length = [] :=
        List.drop_eq_nil_of_le (by simp)
      rw [hd]
      simp [condsMatch, RState.isAccept]
  | cons c t ih =>
    intro j hj
    rw [eccD_nonsplit _ j (by rw [chainNFA_size]; omega) (chainNFA_get_nonsplit idc aid j hj)]
    rcases Nat.lt_or_ge j idc.length with h | h
    · rw [chainNFA_get_state_lt idc aid j h]
      rw [List.foldl_cons, stepSet_transition]
      rw [List.drop_eq_getElem_cons (l := idc.map Prod.snd) (by simpa using h)]
      rcases htest : (idc[j].2).test c with _ | _
      · rw [if_neg (by simp [htest])]
        rw [foldl_stepSet_nil]
        simp [condsMatch, htest]
      · rw [if_pos (by simp [htest])]
        rw [ih (j + 1) (by omega)]
        simp [condsMatch, htest]
    · have hje : j = idc.length := le_antisymm hj h
      subst hje
      rw [chainNFA_get_state_last idc aid]
      rw [List.foldl_cons, stepSet_accept, foldl_stepSet_nil]
      have hd : (idc.map Prod.snd).drop idc.length = [] :=
        List.drop_eq_nil_of_le (by simp)
      rw [hd]
      simp [condsMatch]

/-- Whole-string matching on a chain NFA is pointwise condition matching. -/
theorem chain_matchesL (idc : List (Nat × Condition)) (aid : Nat) (l : List Char) :
    (chainNFA idc aid).matchesL l = condsMatch (idc.map Prod.snd) l := by
  have h := chain_fold idc aid l 0 (Nat.zero_le _)
  simpa [NFA.matchesL, NFA.start, chainNFA] using h

/-- Pointwise matching against literal conditions is list equality. -/
theorem condsMatch_ids (cs : List Char) : ∀ l, condsMatch (cs.map Condition.id) l = true ↔ l = cs := by
  induction cs with
  | nil => intro l; cases l <;> simp [condsMatch]
  | cons c rest ih =>
    intro l
    cases l with
    | nil => simp [condsMatch]
    | cons x t => simp [condsMatch, Condition.test, ih t, eq_comm (a := c) (b := x), and_comm]

/-! ### Patching lemmas for `link_fragment` -/

theorem set_out_idem (s : RState) (t : Nat) :
    (s.set_out (some t)).set_out (some t) = s.set_out (some t) := by
  cases s with
  | transition a b c => rfl
  | accept a => rfl
  | split i l r =>
    by_cases h : l = none ∧ r = none
    · simp [RState.set_out, h]
    · simp only [RState.set_out, if_neg h]
      simp

theorem set_out_accept (a : Nat) (t : Option Nat) :
    (RState.accept a).set_out t = .accept a := rfl

theorem link_state_head (n : NFA) (j t : Nat) : (n.link_state j t).head = n.head := by
  unfold NFA.link_state
  split <;> rfl

theorem link_state_length (n : NFA) (j t : Nat) :
    (n.link_state j t).state_list.length = n.state_list.length := by
  unfold NFA.link_state
  split <;> simp

theorem link_state_get_ne (n : NFA) (j t i : Nat) (h : i ≠ j) :
    (n.link_state j t).state_list[i]? = n.state_list[i]? := by
  unfold NFA.link_state
  split
  · simp [List.getElem?_set_ne (Ne.symm h)]
  · rfl

theorem link_state_get_self (n : NFA) (j t : Nat) :
    (n.link_state j t).state_list[j]? =
      (n.state_list[j]?).map (fun s => s.set_out (some t)) := by
  unfold NFA.link_state
  split
  · next s hs =>
    have hs' : n.state_list[j]? = some s := by rw [← List.get?_eq_getElem?]; exact hs
    have hlt : j < n.state_list.length := (List.getElem?_eq_some_iff.mp hs').choose
    simp [List.getElem?_set_self hlt, hs']
  · next hs =>
    have hs' : n.state_list[j]? = none := by rw [← List.get?_eq_getElem?]; exact hs
    simp [hs']

theorem linkFold_head (t : Nat) (outs : List Nat) :
    ∀ n : NFA, (outs.foldl (fun m idx => m.link_state idx t) n).head = n.head := by
  induction outs with
  | nil => intro n; rfl
  | cons o rest ih => intro n; rw [List.foldl_cons, ih, link_state_head]

theorem linkFold_length (t : Nat) (outs : List Nat) :
    ∀ n : NFA, (outs.foldl (fun m idx => m.link_state idx t) n).state_list.length =
      n.state_list.length := by
  induction outs with
  | nil => intro n; rfl
  | cons o rest ih => intro n; rw [List.foldl_cons, ih, link_state_length]

theorem linkFold_get_not_mem (t : Nat) (outs : List Nat) :
    ∀ (n : NFA) (i : Nat), i ∉ outs →
      (outs.foldl (fun m idx => m.link_state idx t) n).state_list[i]? =
        n.state_list[i]? := by
  induction outs with
  | nil => intro n i _; rfl
  | cons o rest ih =>
    intro n i hi
    rw [List.foldl_cons, ih _ i (fun hm => hi (List.mem_cons_of_mem o hm)),
      link_state_get_ne n o t i (fun he => hi (he ▸ List.mem_cons_self o rest))]

theorem linkFold_get_mem (t : Nat) (outs : List Nat) :
    ∀ (n : NFA) (i : Nat), i ∈ outs →
      (outs.foldl (fun m idx => m.link_state idx t) n).state_list[i]? =
        (n.state_list[i]?).map (fun s => s.set_out (some t)) := by
  induction outs with
  | nil => intro n i hi; exact absurd hi (List.not_mem_nil i)
  | cons o rest ih =>
    intro n i hi
    rw [List.foldl_cons]
    by_cases hm : i ∈ rest
    · rw [ih _ i hm]
      by_cases he : i = o
      · subst he
        rw [link_state_get_self]
        cases hg : n.state_list[i]? with
        | none => rfl
        | some s => simp [set_out_idem]
      · rw [link_state_get_ne n o t i he]
    · have he : i = o := by
        rcases List.mem_cons.mp hi with h | h
        · exact h
        · exact absurd h hm
      subst he
      rw [linkFold_get_not_mem t rest _ i hm, link_state_get_self]

theorem link_fragment_head (n : NFA) (frag : Fragment) (t : Nat) :
    (n.link_fragment frag t).head = n.head := linkFold_head t frag.out n

theorem link_fragment_length (n : NFA) (frag : Fragment) (t : Nat) :
    (n.link_fragment frag t).state_list.length = n.state_list.length :=
  linkFold_length t frag.out n

/-! ### Claim C1: the `Concat` arm -/

/-- Claim C1, counterexample: on the postfix sequence `a b ? .` the fragment
`B` popped by `Concat` has dangling list `[1, 2]`, but the fragment pushed by
the `Concat` arm has dangling list `[2]` (one copy of `B.head` per dangling
slot of `A`), not `B`'s dangling list as the claim states. -/
theorem C1_cex :
    (processAll [.literal 'a', .literal 'b', .opt]).map (fun bs => bs.stack.map Fragment.out) =
      .ok [[1, 2], [0]] ∧
    (processAll [.literal 'a', .literal 'b', .opt, .concat]).map
        (fun bs => bs.stack.map Fragment.out) = .ok [[2]] ∧
    [[2]] ≠ [([1, 2] : List Nat)] :=
  ⟨rfl, rfl, by decide⟩

/-- Claim C1, amended: the `Concat` arm pops `B`, then `A`, patches every
dangling out-slot of `A` to point to `B`'s head, and pushes a fragment whose
head is `A`'s head and whose dangling list holds one copy of `B`'s head per
dangling slot of `A` — `B`'s own dangling list is discarded. -/
theorem C1_concat (n : NFA) (k : Nat) (A B : Fragment) (rest : List Fragment) :
    buildStep ⟨n, B :: A :: rest, k⟩ .concat =
      .ok ⟨n.link_fragment A B.head, ⟨A.head, A.out.map fun _ => B.head⟩ :: rest, k + 1⟩ :=
  rfl

/-! ### Claim C2: finalization of `NFA::build` -/

/-- Claim C2, counterexample: `NFA::build` succeeds on `[a, b]` although two
fragments remain on the stack, and on `a b ? .` (exactly one fragment left,
with head 0) the built NFA's head is 2, not the remaining fragment's head. -/
theorem C2_cex :
    (NFA.build [.literal 'a', .literal 'b']).isOk = true ∧
    (processAll [.literal 'a', .literal 'b']).map (fun bs => bs.stack.length) = .ok 2 ∧
    (processAll [.literal 'a', .literal 'b', .opt, .concat]).map
        (fun bs => bs.stack.map Fragment.head) = .ok [0] ∧
    (NFA.build [.literal 'a', .literal 'b', .opt, .concat]).map NFA.head = .ok 2 ∧
    (2 : Nat) ≠ 0 :=
  ⟨rfl, rfl, rfl, rfl, by decide⟩

/-- Claim C2, amended: whenever `NFA::build` succeeds, at least one fragment
remained after the loop (leftover fragments below the top are not rejected);
an `Accept` state carrying the final counter is appended at the end of the
state list, every dangling slot of the top fragment is patched to it, and the
NFA's head is the head value tracked during the loop — not, in general, the
remaining fragment's head. -/
theorem C2_finalize (exprs : List Expr) (nfa : NFA) (h : NFA.build exprs = .ok nfa) :
    ∃ bs f rest, processAll exprs = .ok bs ∧ bs.stack = f :: rest ∧
      nfa.head = bs.nfa.head ∧
      nfa.state_list.length = bs.nfa.state_list.length + 1 ∧
      nfa.state_list[bs.nfa.state_list.length]? = some (.accept bs.counter) ∧
      ∀ i ∈ f.out, nfa.state_list[i]? =
        ((bs.nfa.state_list ++ [.accept bs.counter])[i]?).map
          (fun s => s.set_out (some bs.nfa.state_list.length)) := by
  rcases hp : processAll exprs with e | bs
  · rw [NFA.build, hp] at h
    exact absurd h (by simp)
  · rw [NFA.build, hp] at h
    dsimp only at h
    rcases hs : bs.stack with _ | ⟨f, rest⟩ <;> rw [hs] at h
    · exact absurd h (by simp)
    · refine ⟨bs, f, rest, rfl, hs, ?_⟩
      have hnfa : nfa = NFA.link_fragment
          ⟨bs.nfa.head, bs.nfa.state_list ++ [.accept bs.counter]⟩ f
          bs.nfa.state_list.length := by
        simp only [NFA.add_state, NFA.link_fragments, Fragment.detached] at h
        exact ((Except.ok.injEq _ _).mp h).symm
      subst hnfa
      refine ⟨link_fragment_head _ _ _, ?_, ?_, ?_⟩
      · rw [link_fragment_length]
        simp
      · by_cases hm : bs.nfa.state_list.length ∈ f.out
        · rw [NFA.link_fragment, linkFold_get_mem _ _ _ _ hm]
          rw [List.getElem?_concat_length]
          rfl
        · rw [NFA.link_fragment, linkFold_get_not_mem _ _ _ _ hm]
          rw [List.getElem?_concat_length]
      · intro i hi
        rw [NFA.link_fragment, linkFold_get_mem _ _ _ _ hi]

/-- Claim C2, witness for the amended theorem at the single-literal postfix
sequence. -/
theorem C2_finalize_witness :
    NFA.build [.literal 'a'] = .ok ⟨0, [.transition 0 (.id 'a') (some 1), .accept 1]⟩ ∧
    (∃ bs f rest, processAll [Expr.literal 'a'] = .ok bs ∧ bs.stack = f :: rest ∧
      (NFA.mk 0 [.transition 0 (.id 'a') (some 1), .accept 1]).head = bs.nfa.head ∧
      (NFA.mk 0 [.transition 0 (.id 'a') (some 1), .accept 1]).state_list.length =
        bs.nfa.state_list.length + 1 ∧
      (NFA.mk 0 [.transition 0 (.id 'a') (some 1),
        .accept 1]).state_list[bs.nfa.state_list.length]? = some (.accept bs.counter) ∧
      ∀ i ∈ f.out,
        (NFA.mk 0 [.transition 0 (.id 'a') (some 1), .accept 1]).state_list[i]? =
          ((bs.nfa.state_list ++ [.accept bs.counter])[i]?).map
            (fun s => s.set_out (some bs.nfa.state_list.length))) :=
  ⟨rfl, C2_finalize [.literal 'a'] _ rfl⟩

/-! ### Claim C3: regex unit expectations -/

/-- Claim C3: the compiled matcher for `a` accepts exactly `"a"`; the one for
`a.b` accepts exactly `"ab"`; the one for `(a|b)*` accepts `""`, `"a"` and
`"abab"` and rejects `"c"`; the one for `[0-9]+` accepts `"123"` and rejects
`""` — all as whole-string matches. -/
theorem C3_regex_units :
    (∀ s : String, ((nfaFor "a").matchesStr s = true ↔ s = "a")) ∧
    (∀ s : String, ((nfaFor "a.b").matchesStr s = true ↔ s = "ab")) ∧
    (nfaFor "(a|b)*").matchesStr "" = true ∧
    (nfaFor "(a|b)*").matchesStr "a" = true ∧
    (nfaFor "(a|b)*").matchesStr "abab" = true ∧
    (nfaFor "(a|b)*").matchesStr "c" = false ∧
    (nfaFor "[0-9]+").matchesStr "123" = true ∧
    (nfaFor "[0-9]+").matchesStr "" = false := by
  refine ⟨?_, ?_, by decide, by decide, by decide, by decide, by decide, by decide⟩
  · intro s
    have hA : nfaFor "a" = chainNFA [(0, Condition.id 'a')] 1 := by decide
    rw [NFA.matchesStr, hA, chain_matchesL]
    have hc := condsMatch_ids ['a'] s.data
    simp only [List.map] at hc ⊢
    rw [hc]
    exact ⟨fun h => String.ext h, fun h => by rw [h]⟩
  · intro s
    have hA : nfaFor "a.b" = chainNFA [(0, Condition.id 'a'), (1, Condition.id 'b')] 3 := by
      decide
    rw [NFA.matchesStr, hA, chain_matchesL]
    have hc := condsMatch_ids ['a', 'b'] s.data
    simp only [List.map] at hc ⊢
    rw [hc]
    exact ⟨fun h => String.ext h, fun h => by rw [h]⟩

/-! ### Claims C7 and C8: pattern compilation -/

/-- Claim C7, counterexample: a backslash followed by `]` does not compile to
the literal `]`; the `]` arm of the tokenizer closes the escape buffer as a
bracket and fails with an invalid-range error. -/
theorem C7_cex : Expr.build (String.mk ['\\', ']']) = .error "Invalid range" := rfl

/-- Claim C7, amended: for every character `c` other than `]`, a backslash
immediately followed by `c` (outside a bracketed class) compiles to the single
literal element `Literal c`, including metacharacters; for `c = ]` the pattern
fails to compile. -/
theorem C7_escape (c : Char) (hc : c ≠ ']') :
    Expr.build (String.mk ['\\', c]) = .ok [.literal c] := by
  have ht1 : tokStep (none, []) '\\' = .ok (some ['\\'], []) := rfl
  have ht2 : tokStep (some ['\\'], []) c = .ok (none, [.lit c]) := by
    simp only [tokStep]
    rw [if_neg hc]
    simp
  have hf : ([('\\' : Char), c].foldlM tokStep
      ((none : Option (List Char)), ([] : List RToken))) = .ok (none, [.lit c]) := by
    rw [List.foldlM_cons, ht1]
    show ([c].foldlM tokStep ((some ['\\'] : Option (List Char)), ([] : List RToken))) = _
    rw [List.foldlM_cons, ht2]
    rfl
  have htok : tokenize (String.mk ['\\', c]) = .ok [.lit c] := by
    unfold tokenize
    rw [show (String.mk ['\\', c]).data = ['\\', c] from rfl, hf]
  unfold Expr.build
  rw [htok]
  rfl

/-- Claim C7, witness for the amended theorem at the metacharacter `(`. -/
theorem C7_escape_witness :
    ('(' : Char) ≠ ']' ∧ Expr.build (String.mk ['\\', '(']) = .ok [.literal '('] :=
  ⟨by decide, C7_escape '(' (by decide)⟩

/-- Claim C8, counterexample: a pattern containing a `)` with no matching `(`
compiles successfully — the closed-parenthesis arm pops an empty operator
stack without error — contradicting the claim that it fails. -/
theorem C8_cex : Expr.build "a)" = .ok [.literal 'a'] := rfl

/-- Claim C8, amended: pattern compilation rejects an unclosed `[`, a stray
`(` and a bracketed class that is not a valid range, but a pattern with an
unmatched `)` compiles successfully (the `)` is silently discarded). -/
theorem C8_pattern_errors :
    Expr.build "[a" = .error "Unclosed '['" ∧
    Expr.build "(a" = .error "Unmatched '('" ∧
    Expr.build "[ab]" = .error "Invalid range" ∧
    Expr.build "a)" = .ok [.literal 'a'] :=
  ⟨rfl, rfl, rfl, rfl⟩

/-! ### Claim C5: block mode -/

/-- Claim C5: byte/character confusion in `lex_block`. The block text is taken
correctly (a byte slice before any cursor movement), but the cursor is then
advanced once per BYTE of the text plus once more; for the two-byte character
`é` this overshoots the closing backtick and swallows the following `x`: the
final state has consumed the whole input (`rest = []`, offset 5) instead of
standing immediately past the closing backtick (offset 4, `rest = ['x']`),
and the lexed stream of `` `é`x `` ends after the text block. -/
theorem C5_block_overrun :
    lexBlock ⟨['é', '`', 'x'], ⟨1, 0, 1⟩, Mode.block⟩ =
      .ok (⟨.textBlock "é", ⟨⟨1, 0, 1⟩, ⟨5, 0, 4⟩⟩⟩, ⟨[], ⟨5, 0, 4⟩, .normal⟩) ∧
    lexString (String.mk ['`', 'é', '`', 'x']) =
      some (.ok [⟨.textBlock "é", ⟨⟨1, 0, 1⟩, ⟨5, 0, 4⟩⟩⟩]) ∧
    ([] : List Char) ≠ ['x'] ∧ (5 : Nat) ≠ 1 + ('é'.utf8Size) + 1 :=
  ⟨rfl, rfl, by decide, by decide⟩

theorem ident_nfa_eq : nfaFor "(([a-z]|[A-Z]|[0-9])*)" = identNFA := by decide

theorem ident_ecc5 : eccD identNFA 5 = identStart := by decide

theorem az_not_uz (c : Char) (h : c ∈ azChars) : c ∉ uzChars := by
  fin_cases h <;> decide

theorem az_not_dig (c : Char) (h : c ∈ azChars) : c ∉ digChars := by
  fin_cases h <;> decide

theorem uz_not_dig (c : Char) (h : c ∈ uzChars) : c ∉ digChars := by
  fin_cases h <;> decide

theorem ident_step (c : Char) :
    stepSet identNFA identStart c = if isAlnumB c then identStart else [] := by
  have haz : eccD identNFA 5 = identStart := ident_ecc5
  simp only [stepSet, identStart, List.flatMap_cons, List.flatMap_nil, Condition.test]
  rcases h1 : azChars.contains c with _ | _ <;>
    rcases h2 : uzChars.contains c with _ | _ <;>
      rcases h3 : digChars.contains c with _ | _ <;>
        simp_all [isAlnumB, identStart]
  · exact ((uz_not_dig c h2) h3).elim
  · exact ((az_not_dig c h1) h3).elim
  · exact ((az_not_uz c h1) h2).elim
  · exact ((az_not_uz c h1) h2).elim

theorem ident_matchesL (l : List Char) : identNFA.matchesL l = l.all isAlnumB := by
  have hgen : ∀ l2 : List Char,
      ((l2.foldl (stepSet identNFA) identStart).any RState.isAccept) = l2.all isAlnumB := by
    intro l2
    induction l2 with
    | nil => decide
    | cons c t ih =>
      rw [List.foldl_cons, ident_step]
      rcases h : isAlnumB c with _ | _
      · rw [if_neg (by simp [h]), foldl_stepSet_nil]
        simp [h]
      · rw [if_pos (by simp [h]), ih]
        simp [h]
  have hstart : eccD identNFA identNFA.start = identStart := ident_ecc5
  rw [NFA.matchesL, hstart, hgen]

/-- A chain-shaped token-spec matcher accepts exactly pointwise condition
matching. -/
theorem spec_matches_of_chain (pat : String) (idc : List (Nat × Condition)) (aid : Nat)
    (conds : List Condition) (h : nfaFor pat = chainNFA idc aid)
    (hc : idc.map Prod.snd = conds) (w : List Char) :
    (nfaFor pat).matchesStr (String.mk w) = condsMatch conds w := by
  rw [h, ← hc]
  exact chain_matchesL idc aid w

theorem ident_matchesStr (w : List Char) :
    (nfaFor "(([a-z]|[A-Z]|[0-9])*)").matchesStr (String.mk w) = w.all isAlnumB := by
  rw [ident_nfa_eq]
  exact ident_matchesL w

theorem firstTryMatch_cons_if (m : NFA) (f : String → TokenKind) (rest : List TokenSpec)
    (w : List Char) (b : Bool) (hb : m.matchesStr (String.mk w) = b) :
    firstTryMatch (⟨m, f⟩ :: rest) w =
      if b then some (f (String.mk w)) else firstTryMatch rest w := by
  subst hb
  rcases h : m.matchesStr (String.mk w) with _ | _ <;>
    simp [firstTryMatch, TokenSpec.try_match, h]

/-- Trying the built-in specs in order against a window is the explicit
cascade `specKindAt`. -/
theorem firstTryMatch_specs (w : List Char) :
    firstTryMatch token_specs w = specKindAt w := by
  rw [token_specs]
  rw [firstTryMatch_cons_if _ _ _ w _
    (spec_matches_of_chain "\\\x7b" [(0, .id '{')] 1 [Condition.id '{'] (by decide) rfl w)]
  rw [firstTryMatch_cons_if _ _ _ w _
    (spec_matches_of_chain "\\\x7d" [(0, .id '}')] 1 [Condition.id '}'] (by decide) rfl w)]
  rw [firstTryMatch_cons_if _ _ _ w _
    (spec_matches_of_chain "\\(" [(0, .id '(')] 1 [Condition.id '('] (by decide) rfl w)]
  rw [firstTryMatch_cons_if _ _ _ w _
    (spec_matches_of_chain "\\)" [(0, .id ')')] 1 [Condition.id ')'] (by decide) rfl w)]
  rw [firstTryMatch_cons_if _ _ _ w _
    (spec_matches_of_chain "(s.e.c.t.i.o.n)"
      [(0, .id 's'), (1, .id 'e'), (3, .id 'c'), (5, .id 't'), (7, .id 'i'), (9, .id 'o'),
        (11, .id 'n')] 13 (kwConds "section") (by decide) rfl w)]
  rw [firstTryMatch_cons_if _ _ _ w _
    (spec_matches_of_chain "(a.r.t.i.c.l.e)"
      [(0, .id 'a'), (1, .id 'r'), (3, .id 't'), (5, .id 'i'), (7, .id 'c'), (9, .id 'l'),
        (11, .id 'e')] 13 (kwConds "article") (by decide) rfl w)]
  rw [firstTryMatch_cons_if _ _ _ w _
    (spec_matches_of_chain "(p.a.r.a.g.r.a.p.h)"
      [(0, .id 'p'), (1, .id 'a'), (3, .id 'r'), (5, .id 'a'), (7, .id 'g'), (9, .id 'r'),
        (11, .id 'a'), (13, .id 'p'), (15, .id 'h')] 17 (kwConds "paragraph") (by decide) rfl w)]
  rw [firstTryMatch_cons_if _ _ _ w _
    (spec_matches_of_chain "(h.[1-3])" [(0, .id 'h'), (1, .charCls ['1', '2', '3'])] 3
      headingConds (by decide) rfl w)]
  rw [firstTryMatch_cons_if _ _ _ w _
    (spec_matches_of_chain "(a.s.i.d.e)"
      [(0, .id 'a'), (1, .id 's'), (3, .id 'i'), (5, .id 'd'), (7, .id 'e')] 9
      (kwConds "aside") (by decide) rfl w)]
  rw [firstTryMatch_cons_if _ _ _ w _
    (spec_matches_of_chain "(o.l)" [(0, .id 'o'), (1, .id 'l')] 3 (kwConds "ol")
      (by decide) rfl w)]
  rw [firstTryMatch_cons_if _ _ _ w _
    (spec_matches_of_chain "(u.l)" [(0, .id 'u'), (1, .id 'l')] 3 (kwConds "ul")
      (by decide) rfl w)]
  rw [firstTryMatch_cons_if _ _ _ w _
    (spec_matches_of_chain "(l.i)" [(0, .id 'l'), (1, .id 'i')] 3 (kwConds "li")
      (by decide) rfl w)]
  rw [firstTryMatch_cons_if _ _ _ w _
    (spec_matches_of_chain "(c.o.d.e)"
      [(0, .id 'c'), (1, .id 'o'), (3, .id 'd'), (5, .id 'e')] 7 (kwConds "code")
      (by decide) rfl w)]
  rw [firstTryMatch_cons_if _ _ _ w _
    (spec_matches_of_chain "(`)" [(0, .id '`')] 1 [Condition.id '`'] (by decide) rfl w)]
  rw [firstTryMatch_cons_if _ _ _ w _ (ident_matchesStr w)]
  rfl

/-! ### Longest match: claim C4 -/

theorem condsMatch_length (cs : List Condition) :
    ∀ w, condsMatch cs w = true → w.length = cs.length := by
  induction cs with
  | nil => intro w h; cases w with
    | nil => rfl
    | cons x t => exact absurd h (by simp [condsMatch])
  | cons c rest ih =>
    intro w h
    cases w with
    | nil => exact absurd h (by simp [condsMatch])
    | cons x t =>
      simp only [condsMatch, Bool.and_eq_true] at h
      simpa using ih t h.2

theorem heading_shape (w : List Char) (h : condsMatch headingConds w = true) :
    ∃ d, w = ['h', d] ∧ d ∈ (['1', '2', '3'] : List Char) := by
  match w with
  | [] => exact absurd h (by simp [condsMatch, headingConds])
  | [x] => exact absurd h (by simp [condsMatch, headingConds])
  | x :: y :: z :: t => exact absurd h (by simp [condsMatch, headingConds, Condition.test])
  | [x, y] =>
    refine ⟨y, ?_, ?_⟩
    · simp only [condsMatch, headingConds, Condition.test, Bool.and_eq_true] at h
      have hx : x = 'h' := (eq_of_beq h.1).symm
      rw [hx]
    · simp only [condsMatch, headingConds, Condition.test, Bool.and_eq_true] at h
      have := h.2.1
      simpa using this

theorem kwConds_iff (s : String) (w : List Char) :
    condsMatch (kwConds s) w = true ↔ w = s.data :=
  condsMatch_ids s.data w

/-- When none of the fourteen non-`Ident` conditions holds, the cascade
reduces to the `Ident` catch-all. -/
theorem specKindAt_of_neg (w : List Char)
    (g1 : ¬condsMatch [Condition.id '{'] w = true)
    (g2 : ¬condsMatch [Condition.id '}'] w = true)
    (g3 : ¬condsMatch [Condition.id '('] w = true)
    (g4 : ¬condsMatch [Condition.id ')'] w = true)
    (g5 : ¬condsMatch (kwConds "section") w = true)
    (g6 : ¬condsMatch (kwConds "article") w = true)
    (g7 : ¬condsMatch (kwConds "paragraph") w = true)
    (g8 : ¬condsMatch headingConds w = true)
    (g9 : ¬condsMatch (kwConds "aside") w = true)
    (g10 : ¬condsMatch (kwConds "ol") w = true)
    (g11 : ¬condsMatch (kwConds "ul") w = true)
    (g12 : ¬condsMatch (kwConds "li") w = true)
    (g13 : ¬condsMatch (kwConds "code") w = true)
    (g14 : ¬condsMatch [Condition.id '`'] w = true) :
    specKindAt w = if w.all isAlnumB then some (.ident (String.mk w)) else none := by
  unfold specKindAt
  rw [if_neg g1, if_neg g2, if_neg g3, if_neg g4, if_neg g5, if_neg g6, if_neg g7,
    if_neg g8, if_neg g9, if_neg g10, if_neg g11, if_neg g12, if_neg g13, if_neg g14]

theorem single_cond_length (ch : Char) (w : List Char)
    (h : condsMatch [Condition.id ch] w = true) : w.length = 1 := by
  have := condsMatch_length [Condition.id ch] w h
  simpa using this

theorem specKindAt_ge2_alnum (w : List Char) (h2 : 2 ≤ w.length)
    (h : specKindAt w ≠ none) : w.all isAlnumB = true := by
  by_cases g1 : condsMatch [Condition.id '{'] w = true
  · have := single_cond_length _ _ g1; omega
  by_cases g2 : condsMatch [Condition.id '}'] w = true
  · have := single_cond_length _ _ g2; omega
  by_cases g3 : condsMatch [Condition.id '('] w = true
  · have := single_cond_length _ _ g3; omega
  by_cases g4 : condsMatch [Condition.id ')'] w = true
  · have := single_cond_length _ _ g4; omega
  by_cases g14 : condsMatch [Condition.id '`'] w = true
  · have := single_cond_length _ _ g14; omega
  by_cases g5 : condsMatch (kwConds "section") w = true
  · rw [(kwConds_iff _ _).mp g5]; decide
  by_cases g6 : condsMatch (kwConds "article") w = true
  · rw [(kwConds_iff _ _).mp g6]; decide
  by_cases g7 : condsMatch (kwConds "paragraph") w = true
  · rw [(kwConds_iff _ _).mp g7]; decide
  by_cases g8 : condsMatch headingConds w = true
  · obtain ⟨d, hw, hd⟩ := heading_shape w g8
    subst hw
    fin_cases hd <;> decide
  by_cases g9 : condsMatch (kwConds "aside") w = true
  · rw [(kwConds_iff _ _).mp g9]; decide
  by_cases g10 : condsMatch (kwConds "ol") w = true
  · rw [(kwConds_iff _ _).mp g10]; decide
  by_cases g11 : condsMatch (kwConds "ul") w = true
  · rw [(kwConds_iff _ _).mp g11]; decide
  by_cases g12 : condsMatch (kwConds "li") w = true
  · rw [(kwConds_iff _ _).mp g12]; decide
  by_cases g13 : condsMatch (kwConds "code") w = true
  · rw [(kwConds_iff _ _).mp g13]; decide
  rw [specKindAt_of_neg w g1 g2 g3 g4 g5 g6 g7 g8 g9 g10 g11 g12 g13 g14] at h
  by_cases g15 : w.all isAlnumB = true
  · exact g15
  · rw [if_neg (by simpa using g15)] at h
    exact absurd rfl h

theorem alnum_specKindAt_some (w : List Char) (hall : w.all isAlnumB = true) :
    specKindAt w ≠ none := by
  intro hnone
  by_cases g1 : condsMatch [Condition.id '{'] w = true
  · rw [specKindAt, if_pos g1] at hnone; cases hnone
  by_cases g2 : condsMatch [Condition.id '}'] w = true
  · rw [specKindAt, if_neg g1, if_pos g2] at hnone; cases hnone
  by_cases g3 : condsMatch [Condition.id '('] w = true
  · rw [specKindAt, if_neg g1, if_neg g2, if_pos g3] at hnone; cases hnone
  by_cases g4 : condsMatch [Condition.id ')'] w = true
  · rw [specKindAt, if_neg g1, if_neg g2, if_neg g3, if_pos g4] at hnone; cases hnone
  by_cases g5 : condsMatch (kwConds "section") w = true
  · rw [specKindAt, if_neg g1, if_neg g2, if_neg g3, if_neg g4, if_pos g5] at hnone
    cases hnone
  by_cases g6 : condsMatch (kwConds "article") w = true
  · rw [specKindAt, if_neg g1, if_neg g2, if_neg g3, if_neg g4, if_neg g5,
      if_pos g6] at hnone
    cases hnone
  by_cases g7 : condsMatch (kwConds "paragraph") w = true
  · rw [specKindAt, if_neg g1, if_neg g2, if_neg g3, if_neg g4, if_neg g5, if_neg g6,
      if_pos g7] at hnone
    cases hnone
  by_cases g8 : condsMatch headingConds w = true
  · rw [specKindAt, if_neg g1, if_neg g2, if_neg g3, if_neg g4, if_neg g5, if_neg g6,
      if_neg g7, if_pos g8] at hnone
    cases hnone
  by_cases g9 : condsMatch (kwConds "aside") w = true
  · rw [specKindAt, if_neg g1, if_neg g2, if_neg g3, if_neg g4, if_neg g5, if_neg g6,
      if_neg g7, if_neg g8, if_pos g9] at hnone
    cases hnone
  by_cases g10 : condsMatch (kwConds "ol") w = true
  · rw [specKindAt, if_neg g1, if_neg g2, if_neg g3, if_neg g4, if_neg g5, if_neg g6,
      if_neg g7, if_neg g8, if_neg g9, if_pos g10] at hnone
    cases hnone
  by_cases g11 : condsMatch (kwConds "ul") w = true
  · rw [specKindAt, if_neg g1, if_neg g2, if_neg g3, if_neg g4, if_neg g5, if_neg g6,
      if_neg g7, if_neg g8, if_neg g9, if_neg g10, if_pos g11] at hnone
    cases hnone
  by_cases g12 : condsMatch (kwConds "li") w = true
  · rw [specKindAt, if_neg g1, if_neg g2, if_neg g3, if_neg g4, if_neg g5, if_neg g6,
      if_neg g7, if_neg g8, if_neg g9, if_neg g10, if_neg g11, if_pos g12] at hnone
    cases hnone
  by_cases g13 : condsMatch (kwConds "code") w = true
  · rw [specKindAt, if_neg g1, if_neg g2, if_neg g3, if_neg g4, if_neg g5, if_neg g6,
      if_neg g7, if_neg g8, if_neg g9, if_neg g10, if_neg g11, if_neg g12,
      if_pos g13] at hnone
    cases hnone
  by_cases g14 : condsMatch [Condition.id '`'] w = true
  · rw [specKindAt, if_neg g1, if_neg g2, if_neg g3, if_neg g4, if_neg g5, if_neg g6,
      if_neg g7, if_neg g8, if_neg g9, if_neg g10, if_neg g11, if_neg g12, if_neg g13,
      if_pos g14] at hnone
    cases hnone
  rw [specKindAt_of_neg w g1 g2 g3 g4 g5 g6 g7 g8 g9 g10 g11 g12 g13 g14,
    if_pos hall] at hnone
  cases hnone

theorem all_take {p : Char → Bool} (w : List Char) (k : Nat) (h : w.all p = true) :
    (w.take k).all p = true :=
  List.all_eq_true.mpr fun x hx => List.all_eq_true.mp h x (List.mem_of_mem_take hx)

theorem specKindAt_take_down (w : List Char) (l k : Nat) (hk1 : 1 ≤ k) (hkl : k ≤ l)
    (hl : l ≤ w.length) (h : specKindAt (w.take l) ≠ none) :
    specKindAt (w.take k) ≠ none := by
  rcases Nat.lt_or_ge l 2 with h2 | h2
  · have hkeq : k = l := by omega
    subst hkeq
    exact h
  · have hlen : (w.take l).length = l := by rw [List.length_take]; omega
    have hall : (w.take l).all isAlnumB = true := specKindAt_ge2_alnum _ (by omega) h
    have heq : w.take k = (w.take l).take k := by
      rw [List.take_take, min_eq_left hkl]
    rw [heq]
    exact alnum_specKindAt_some _ (all_take _ k hall)

theorem bestMatchAux_sound (rest : List Char) :
    ∀ (cand : List Char) (count : Nat) (last : Option (TokenKind × Nat)) (k : TokenKind)
      (m : Nat),
      cand.length = count →
      (∀ k0 m0, last = some (k0, m0) →
        m0 ≤ count ∧ firstTryMatch token_specs (cand.take m0) = some k0) →
      bestMatchAux token_specs rest cand count last = some (k, m) →
      m ≤ cand.length + rest.length ∧
        firstTryMatch token_specs ((cand ++ rest).take m) = some k := by
  induction rest with
  | nil =>
    intro cand count last k m hlen hlast hres
    obtain ⟨hm, hf⟩ := hlast k m hres
    refine ⟨by omega, ?_⟩
    rw [List.append_nil]
    exact hf
  | cons c rest ih =>
    intro cand count last k m hlen hlast hres
    rcases hmatch : firstTryMatch token_specs (cand ++ [c]) with _ | kind
    · rw [bestMatchAux, hmatch] at hres
      obtain ⟨hm, hf⟩ := hlast k m hres
      refine ⟨by simp; omega, ?_⟩
      rw [List.take_append_of_le_length (by omega)]
      exact hf
    · rw [bestMatchAux, hmatch] at hres
      have hlen1 : (cand ++ [c]).length = count + 1 := by simp [hlen]
      have hlast1 : ∀ k0 m0, (some (kind, count + 1) : Option (TokenKind × Nat)) = some (k0, m0) →
          m0 ≤ count + 1 ∧ firstTryMatch token_specs ((cand ++ [c]).take m0) = some k0 := by
        intro k0 m0 hc
        injection hc with hc
        injection hc with hk hm
        subst hk; subst hm
        refine ⟨le_refl _, ?_⟩
        rw [← hlen1, List.take_length]
        exact hmatch
      obtain ⟨hm, hf⟩ := ih (cand ++ [c]) (count + 1) _ k m hlen1 hlast1 hres
      rw [List.append_assoc] at hf
      refine ⟨?_, hf⟩
      simp only [List.length_append, List.length_singleton] at hm
      simp
      omega

theorem bestMatchAux_stop (rest : List Char) :
    ∀ (cand : List Char) (count : Nat) (last : Option (TokenKind × Nat)) (k : TokenKind)
      (m : Nat),
      cand.length = count →
      (∀ k0 m0, last = some (k0, m0) → m0 = count) →
      bestMatchAux token_specs rest cand count last = some (k, m) →
      (m = cand.length + rest.length ∨
        (m + 1 ≤ cand.length + rest.length ∧
          firstTryMatch token_specs ((cand ++ rest).take (m + 1)) = none)) := by
  induction rest with
  | nil =>
    intro cand count last k m hlen hlast hres
    left
    have := hlast k m hres
    simp only [List.length_nil]
    omega
  | cons c rest ih =>
    intro cand count last k m hlen hlast hres
    rcases hmatch : firstTryMatch token_specs (cand ++ [c]) with _ | kind
    · rw [bestMatchAux, hmatch] at hres
      have hm := hlast k m hres
      right
      constructor
      · simp; omega
      · have hsplit : cand ++ c :: rest = (cand ++ [c]) ++ rest := by simp
        rw [hsplit, List.take_append_of_le_length (by simp [hlen]; omega)]
        have hfull : (cand ++ [c]).take (m + 1) = cand ++ [c] := by
          have : (cand ++ [c]).length = m + 1 := by simp [hlen, hm]
          rw [← this, List.take_length]
        rw [hfull]
        exact hmatch
    · rw [bestMatchAux, hmatch] at hres
      have hlen1 : (cand ++ [c]).length = count + 1 := by simp [hlen]
      have hres2 := ih (cand ++ [c]) (count + 1) _ k m hlen1
        (by intro k0 m0 hc; injection hc with hc; injection hc with hk hm; omega) hres
      rcases hres2 with he | ⟨hle, hnone⟩
      · left
        simp only [List.length_append, List.length_singleton] at he
        simp
        omega
      · right
        rw [List.append_assoc] at hnone
        refine ⟨?_, hnone⟩
        simp only [List.length_append, List.length_singleton] at hle
        simp
        omega

theorem firstTryMatch_ne_none_iff (specs : List TokenSpec) (w : List Char) :
    firstTryMatch specs w ≠ none ↔
      ∃ sp ∈ specs, (sp.try_match (String.mk w)).isSome = true := by
  induction specs with
  | nil => simp [firstTryMatch]
  | cons sp rest ih =>
    rcases h : sp.try_match (String.mk w) with _ | k
    · rw [firstTryMatch, h]
      simp only [List.mem_cons]
      constructor
      · intro hne
        obtain ⟨sp2, hsp2, hs⟩ := ih.mp hne
        exact ⟨sp2, Or.inr hsp2, hs⟩
      · intro ⟨sp2, hsp2, hs⟩
        rcases hsp2 with he | hm
        · subst he
          rw [h] at hs
          exact absurd hs (by simp)
        · exact ih.mpr ⟨sp2, hm, hs⟩
    · rw [firstTryMatch, h]
      simp only [List.mem_cons]
      constructor
      · intro _
        exact ⟨sp, Or.inl rfl, by rw [h]; rfl⟩
      · intro _
        simp

/-- Claim C4: whenever `best_match` over the built-in token-spec table emits
`(kind, len)` at a cursor position (`input` is the remaining source there),
`len` is the maximum window length at which any spec accepts the window as a
whole-string match, and `kind` comes from the first spec in table order that
accepts the window of that length. -/
theorem C4_longest_match (input : List Char) (kind : TokenKind) (len : Nat)
    (h : bestMatch token_specs input = some (kind, len)) :
    len ≤ input.length ∧
    firstTryMatch token_specs (input.take len) = some kind ∧
    ∀ l, l ≤ input.length →
      (∃ sp ∈ token_specs, (sp.try_match (String.mk (input.take l))).isSome = true) →
      l ≤ len := by
  have hs := bestMatchAux_sound input [] 0 none kind len rfl
    (by intro k0 m0 hc; cases hc) h
  obtain ⟨hlen, hfirst⟩ := hs
  have hstop := bestMatchAux_stop input [] 0 none kind len rfl
    (by intro k0 m0 hc; cases hc) h
  refine ⟨by simpa using hlen, by simpa using hfirst, ?_⟩
  intro l hl hex
  by_contra hgt
  push_neg at hgt
  have hne : firstTryMatch token_specs (input.take l) ≠ none :=
    (firstTryMatch_ne_none_iff _ _).mpr hex
  rcases hstop with he | ⟨hle, hnone⟩
  · simp at he
    omega
  · have hdown : specKindAt (input.take (len + 1)) ≠ none :=
      specKindAt_take_down input l (len + 1) (by omega) (by omega) hl
        (by rwa [firstTryMatch_specs] at hne)
    rw [show (([] : List Char) ++ input) = input from rfl] at hnone
    rw [firstTryMatch_specs] at hnone
    exact hdown hnone

/-- Claim C4, witness at the remaining input `ol{`: the emitted token is
`OList` of length 2, and 2 is maximal. -/
theorem C4_longest_match_witness :
    bestMatch token_specs ['o', 'l', '{'] = some (.olist, 2) ∧
    (2 ≤ ([('o' : Char), 'l', '{'] : List Char).length ∧
      firstTryMatch token_specs (([('o' : Char), 'l', '{'] : List Char).take 2) =
        some .olist ∧
      ∀ l, l ≤ ([('o' : Char), 'l', '{'] : List Char).length →
        (∃ sp ∈ token_specs,
          (sp.try_match (String.mk (([('o' : Char), 'l', '{'] : List Char).take l))).isSome =
            true) →
        l ≤ 2) :=
  ⟨rfl, C4_longest_match ['o', 'l', '{'] .olist 2 rfl⟩

/-! ### Claim C10: keywords are not reserved prefixes -/

theorem nonalnum_single (ch : Char) (hch : isAlnumB ch = false) (w : List Char)
    (hall : w.all isAlnumB = true) : condsMatch [Condition.id ch] w = false := by
  cases w with
  | nil => rfl
  | cons x t =>
    cases t with
    | cons y t2 => simp [condsMatch]
    | nil =>
      rcases hb : (ch == x) with _ | _
      · simp [condsMatch, Condition.test, hb]
      · have hx : ch = x := eq_of_beq hb
        have hax : isAlnumB x = true := by simpa using hall
        rw [← hx] at hax
        rw [hax] at hch
        cases hch

theorem bestMatchAux_allacc (rest : List Char) :
    ∀ (cand : List Char) (count : Nat) (k0 : TokenKind),
      cand.length = count →
      firstTryMatch token_specs cand = some k0 →
      (∀ l, firstTryMatch token_specs ((cand ++ rest).take l) ≠ none) →
      ∃ k, firstTryMatch token_specs (cand ++ rest) = some k ∧
        bestMatchAux token_specs rest cand count (some (k0, count)) =
          some (k, count + rest.length) := by
  induction rest with
  | nil =>
    intro cand count k0 hlen hk0 hacc
    refine ⟨k0, ?_, rfl⟩
    rw [List.append_nil]
    exact hk0
  | cons c rest ih =>
    intro cand count k0 hlen hk0 hacc
    have htake : (cand ++ c :: rest).take (count + 1) = cand ++ [c] := by
      have hsplit : cand ++ c :: rest = (cand ++ [c]) ++ rest := by simp
      rw [hsplit, List.take_append_of_le_length (by simp [hlen])]
      have hfull : (cand ++ [c]).length = count + 1 := by simp [hlen]
      rw [← hfull, List.take_length]
    have hne := hacc (count + 1)
    rw [htake] at hne
    obtain ⟨k1, hk1⟩ := Option.ne_none_iff_exists.mp hne
    have hacc2 : ∀ l, firstTryMatch token_specs (((cand ++ [c]) ++ rest).take l) ≠ none := by
      intro l
      have he : (cand ++ [c]) ++ rest = cand ++ c :: rest := by simp
      rw [he]
      exact hacc l
    obtain ⟨k, hk, hres⟩ := ih (cand ++ [c]) (count + 1) k1 (by simp [hlen]) hk1.symm hacc2
    refine ⟨k, ?_, ?_⟩
    · rw [show cand ++ c :: rest = (cand ++ [c]) ++ rest from by simp]
      exact hk
    · rw [bestMatchAux, ← hk1]
      show bestMatchAux token_specs rest (cand ++ [c]) (count + 1) (some (k1, count + 1)) = _
      rw [hres]
      have harith : (count + 1) + rest.length = count + (c :: rest).length := by
        simp
        omega
      rw [harith]

/-- Over an entirely alphanumeric nonempty remaining input, `best_match`
commits to the whole input, with the kind given by the first-match cascade. -/
theorem bestMatch_all_alnum (w : List Char) (hne : w ≠ []) (hall : w.all isAlnumB = true) :
    ∃ k, specKindAt w = some k ∧ bestMatch token_specs w = some (k, w.length) := by
  have hacc : ∀ l, firstTryMatch token_specs (w.take l) ≠ none := by
    intro l
    rw [firstTryMatch_specs]
    exact alnum_specKindAt_some _ (all_take _ l hall)
  cases w with
  | nil => exact absurd rfl hne
  | cons c t =>
    have h1 := hacc 1
    have ht1 : (c :: t).take 1 = [c] := by simp
    rw [ht1] at h1
    obtain ⟨k1, hk1⟩ := Option.ne_none_iff_exists.mp h1
    have hacc2 : ∀ l, firstTryMatch token_specs (([c] ++ t).take l) ≠ none := by
      intro l
      have he : ([c] ++ t) = c :: t := rfl
      rw [he]
      exact hacc l
    obtain ⟨k, hk, hres⟩ := bestMatchAux_allacc t [c] 1 k1 rfl hk1.symm hacc2
    refine ⟨k, ?_, ?_⟩
    · rw [← firstTryMatch_specs]
      exact hk
    · rw [bestMatch, bestMatchAux]
      simp only [List.nil_append, Nat.zero_add]
      rw [← hk1]
      show bestMatchAux token_specs t [c] 1 (some (k1, 1)) = _
      rw [hres]
      simp [Nat.add_comm]

theorem eq_append_facts (k s t : List Char) (hs : s ≠ []) (h : k ++ s = t) :
    k.length < t.length ∧ t.take k.length = k := by
  subst h
  constructor
  · have : 0 < s.length := List.length_pos.mpr hs
    simp
    omega
  · rw [List.take_append_of_le_length (le_refl _), List.take_length]

/-- An all-alphanumeric window matching no keyword and no heading is lexed as
an `Ident` of itself. -/
theorem specKindAt_ident_of (w : List Char) (hall : w.all isAlnumB = true)
    (hkw : ∀ t ∈ kwStrings, w ≠ t.data) (hh : condsMatch headingConds w = false) :
    specKindAt w = some (.ident (String.mk w)) := by
  have n1 := nonalnum_single '{' (by decide) w hall
  have n2 := nonalnum_single '}' (by decide) w hall
  have n3 := nonalnum_single '(' (by decide) w hall
  have n4 := nonalnum_single ')' (by decide) w hall
  have n14 := nonalnum_single '`' (by decide) w hall
  rw [specKindAt_of_neg w (by simp [n1]) (by simp [n2]) (by simp [n3]) (by simp [n4])
    (fun hc => hkw "section" (by simp [kwStrings]) ((kwConds_iff _ _).mp hc))
    (fun hc => hkw "article" (by simp [kwStrings]) ((kwConds_iff _ _).mp hc))
    (fun hc => hkw "paragraph" (by simp [kwStrings]) ((kwConds_iff _ _).mp hc))
    (by simp [hh])
    (fun hc => hkw "aside" (by simp [kwStrings]) ((kwConds_iff _ _).mp hc))
    (fun hc => hkw "ol" (by simp [kwStrings]) ((kwConds_iff _ _).mp hc))
    (fun hc => hkw "ul" (by simp [kwStrings]) ((kwConds_iff _ _).mp hc))
    (fun hc => hkw "li" (by simp [kwStrings]) ((kwConds_iff _ _).mp hc))
    (fun hc => hkw "code" (by simp [kwStrings]) ((kwConds_iff _ _).mp hc))
    (by simp [n14]), if_pos hall]

theorem ident_run_of (w : List Char) (hne : w ≠ []) (hall : w.all isAlnumB = true)
    (hkw : ∀ t ∈ kwStrings, w ≠ t.data) (hh : condsMatch headingConds w = false) :
    bestMatch token_specs w = some (.ident (String.mk w), w.length) := by
  obtain ⟨k, hk, hbm⟩ := bestMatch_all_alnum w hne hall
  rw [specKindAt_ident_of w hall hkw hh] at hk
  injection hk with hk
  rw [← hk] at hbm
  exact hbm

/-- Claim C10: with the built-in token-spec table, a structural keyword
followed immediately by further alphanumeric characters is lexed as a single
`Ident` covering the whole run, never as the keyword token plus a remainder:
`articles` and `olx` lex to single `Ident` tokens, and in general any keyword
spelling followed by a nonempty alphanumeric suffix is committed as one
`Ident` of the whole run. -/
theorem C10_keywords_not_reserved :
    bestMatch token_specs "articles".data = some (.ident "articles", 8) ∧
    bestMatch token_specs "olx".data = some (.ident "olx", 3) ∧
    ∀ kw ∈ keywordStrings, ∀ s : List Char, s ≠ [] → s.all isAlnumB = true →
      bestMatch token_specs (kw.data ++ s) =
        some (.ident (String.mk (kw.data ++ s)), (kw.data ++ s).length) := by
  refine ⟨rfl, rfl, ?_⟩
  intro kw hkw s hne hall
  fin_cases hkw <;>
    refine ident_run_of _ (by simp) (by rw [List.all_append, hall]; decide)
      (by
        intro t ht hEq
        obtain ⟨hlt, htake⟩ := eq_append_facts _ s _ hne hEq
        fin_cases ht <;> revert hlt htake <;> decide)
      (by
        first
        | rfl
        | (cases s with
           | nil => exact absurd rfl hne
           | cons x t2 => rfl))

/-- Claim C10, witness at the keyword `ol` and suffix `x`. -/
theorem C10_keywords_not_reserved_witness :
    ("ol" ∈ keywordStrings ∧ (['x'] : List Char) ≠ [] ∧
      (['x'] : List Char).all isAlnumB = true) ∧
    bestMatch token_specs ("ol".data ++ ['x']) =
      some (.ident (String.mk ("ol".data ++ ['x'])), ("ol".data ++ ['x']).length) :=
  ⟨⟨by simp [keywordStrings], by simp, by decide⟩,
    C10_keywords_not_reserved.2.2 "ol" (by simp [keywordStrings]) ['x'] (by simp) (by decide)⟩

theorem children_weight (P : Program) (n : AstNode) :
    ((children P n).map (weight P)).sum + 1 = weight P n := by
  cases n with
  | article a =>
    simp only [children, weight]
    have hmap : (a.section_calls.filterMap
          fun n => (sectionsGet P.sections n).map AstNode.sectionNode).map (weight P) =
        (a.section_calls.filterMap (sectionsGet P.sections)).map wSection := by
      induction a.section_calls with
      | nil => rfl
      | cons c rest ih =>
        cases h : sectionsGet P.sections c with
        | none => simp [List.filterMap_cons, h, ih]
        | some s => simp [List.filterMap_cons, h, ih, weight]
    rw [hmap]
    omega
  | sectionNode s =>
    simp only [children, weight, wSection, List.map_map]
    have : (weight P ∘ AstNode.paragraph) = wParagraph := rfl
    rw [this]
    omega
  | paragraph p =>
    simp only [children, weight, wParagraph, List.map_map]
    have : (weight P ∘ AstNode.statement) = wStatement := rfl
    rw [this]
    omega
  | statement st =>
    cases st <;> simp [children, weight, wStatement]
  | list l => simp [children, weight]

theorem preorder_children (P : Program) (n : AstNode) :
    preorderNode P n = n :: (children P n).flatMap (preorderNode P) := by
  cases n with
  | article a =>
    simp only [preorderNode, children]
    congr 1
    induction a.section_calls with
    | nil => rfl
    | cons c rest ih =>
      cases h : sectionsGet P.sections c with
      | none => simp [List.filterMap_cons, h, ih]
      | some s => simp [List.filterMap_cons, h, ih, preorderNode]
  | sectionNode s =>
    simp only [preorderNode, preorderSection, children]
    congr 1
    induction s.paragraphs with
    | nil => rfl
    | cons p rest ih => simp [ih, preorderNode]
  | paragraph p =>
    simp only [preorderNode, preorderParagraph, children]
    congr 1
    induction p.statements with
    | nil => rfl
    | cons st rest ih => simp [ih, preorderNode]
  | statement st =>
    cases st <;> simp [preorderNode, preorderStatement, children]
  | list l => simp [preorderNode, children]

theorem weight_pos (P : Program) (n : AstNode) : 1 ≤ weight P n := by
  have := children_weight P n
  omega

/-- The stack-based iterator equals the recursive preorder flattening of the
stack. -/
theorem iterRun_flatten (P : Program) (N : Nat) :
    ∀ stack : List AstNode, (stack.map (weight P)).sum ≤ N →
      iterRun P stack = stack.flatMap (preorderNode P) := by
  induction N with
  | zero =>
    intro stack h
    cases stack with
    | nil => rw [iterRun]; rfl
    | cons n rest =>
      have h1 := weight_pos P n
      simp only [List.map_cons, List.sum_cons] at h
      omega
  | succ N ih =>
    intro stack h
    cases stack with
    | nil => rw [iterRun]; rfl
    | cons n rest =>
      rw [iterRun]
      have hcw := children_weight P n
      rw [ih (children P n ++ rest) (by
        simp only [List.map_append, List.sum_append]
        simp only [List.map_cons, List.sum_cons] at h
        omega)]
      rw [List.flatMap_append, List.flatMap_cons, preorder_children]
      simp

/-! ### Claims C6 and C9 -/

/-- Claim C6, counterexample: the parser accepts an article whose section
calls list the same section name twice, and the AST iterator then visits
that section node twice — not exactly once as the claim states. -/
theorem C6_cex :
    parseSource "article X { s s } section s { }" =
      some (.ok ⟨⟨"X", ["s", "s"]⟩, [("s", ⟨"s", []⟩)]⟩) ∧
    iterAst ⟨⟨"X", ["s", "s"]⟩, [("s", ⟨"s", []⟩)]⟩ =
      [.article ⟨"X", ["s", "s"]⟩, .sectionNode ⟨"s", []⟩, .sectionNode ⟨"s", []⟩] ∧
    ([AstNode.article ⟨"X", ["s", "s"]⟩, .sectionNode ⟨"s", []⟩,
      .sectionNode ⟨"s", []⟩].count (.sectionNode ⟨"s", []⟩)) = 2 ∧
    (2 : Nat) ≠ 1 := by
  refine ⟨rfl, ?_, by decide, by decide⟩
  rw [iterAst, iterRun_flatten _ (([AstNode.article
    (⟨⟨"X", ["s", "s"]⟩, [("s", ⟨"s", []⟩)]⟩ : Program).article].map
      (weight ⟨⟨"X", ["s", "s"]⟩, [("s", ⟨"s", []⟩)]⟩)).sum) _ (le_refl _)]
  rfl

/-- Claim C6, amended: for every program, AST iteration is the deterministic
preorder (pop, push children in reverse so the leftmost child is next) with
the Article node yielded first; each section is visited once per resolved
occurrence in the article's section calls, so a section name listed more than
once makes its node appear more than once. -/
theorem C6_preorder (P : Program) :
    iterAst P = .article P.article ::
      (P.article.section_calls.filterMap (sectionsGet P.sections)).flatMap
        preorderSection ∧
    (iterAst P).head? = some (.article P.article) := by
  have h : iterAst P = preorderNode P (.article P.article) := by
    rw [iterAst, iterRun_flatten P (([AstNode.article P.article].map (weight P)).sum) _
      (le_refl _)]
    simp
  rw [h]
  exact ⟨rfl, rfl⟩

/-- Claim C9: compiling the list example writes exactly, in order, the
article heading line, two `<br/>` lines, the `<ol>` opening line, one `<li>`
line per item, and the `</ol>` line. -/
theorem C9_pipeline :
    compileSource "article X { s } section s { paragraph { ol{ li{a} li{b} } } }" =
      some (.ok ("<h1 className='text-4xl font-bold'>X</h1>\n<br/>\n<br/>\n" ++
        "<ol className='list-inside list-decimal px-8'>\n<li>a</li>\n<li>b</li>\n</ol>\n")) := by
  have hp : parseSource "article X { s } section s { paragraph { ol{ li{a} li{b} } } }" =
      some (.ok ⟨⟨"X", ["s"]⟩,
        [("s", ⟨"s", [⟨[.list (.ordered ["a", "b"])]⟩]⟩)]⟩) := rfl
  have hiter : iterAst ⟨⟨"X", ["s"]⟩,
      [("s", ⟨"s", [⟨[.list (.ordered ["a", "b"])]⟩]⟩)]⟩ =
      [.article ⟨"X", ["s"]⟩,
       .sectionNode ⟨"s", [⟨[.list (.ordered ["a", "b"])]⟩]⟩,
       .paragraph ⟨[.list (.ordered ["a", "b"])]⟩,
       .statement (.list (.ordered ["a", "b"])),
       .list (.ordered ["a", "b"])] := by
    rw [iterAst, iterRun_flatten _ (([AstNode.article
      (⟨⟨"X", ["s"]⟩, [("s", ⟨"s", [⟨[.list (.ordered ["a", "b"])]⟩]⟩)]⟩ : Program).article].map
        (weight ⟨⟨"X", ["s"]⟩, [("s", ⟨"s", [⟨[.list (.ordered ["a", "b"])]⟩]⟩)]⟩)).sum) _
      (le_refl _)]
    rfl
  rw [compileSource, hp]
  show some (Except.ok (compileProgram _)) = _
  rw [compileProgram, hiter]
  rfl

end Blogger

